import Mathlib

/-!
Shallow embedding of the adapter-dispatch and stream-normalization engine of
the `@nquandt/azure-ai-sdk` package, together with proofs of the behavioural
properties stated in its specification.

The embedding covers:
* the finish-reason mapper (`mapFinishReason`);
* the adapter resolver (`detectAdapterType`, `resolveAdapter`) with its
  model-id pattern heuristics;
* the request builders of the two implemented adapter families
  (`openAIBuildRequest` for the `openai` family, `openAILegacyBuildRequest`
  for the `openai-legacy` family), including message normalisation
  (`convertToOpenAIMessages`);
* the streaming chunk parser and accumulator (`parseChunkFn`, `flushFn`,
  `runStream`) of the OpenAI adapter, shared by both wire families.

JavaScript `Map`s (insertion-ordered) are modelled as association lists,
JS `Set`s as insertion-ordered duplicate-free lists, `undefined`/`null`
as `Option`, and the injected `generateId` thunk as a counter-indexed
supply `Nat → String`.
-/

set_option autoImplicit false

namespace AzureAiSdk

/-- The apostrophe character, used to reconstruct string literals of the
source verbatim. -/
def quoteChar : String := String.singleton (Char.ofNat 39)

-- ---------------------------------------------------------------------------
-- Finish-reason mapper (`mapFinishReason` in `openai-adapter.ts` and in
-- `azure-foundry-chat-language-model.ts`; both copies are identical).
-- ---------------------------------------------------------------------------

/-- `LanguageModelV2FinishReason` from `@ai-sdk/provider`. -/
inductive FinishReason where
  | stop
  | length
  | contentFilter
  | toolCalls
  | error
  | other
  | unknown
deriving DecidableEq, Repr

/-- `mapFinishReason(reason: string | null | undefined)`: fixed four-entry
table with default `other`. `none` stands for both `null` and `undefined`. -/
def mapFinishReason (reason : Option String) : FinishReason :=
  match reason with
  | some "stop" => .stop
  | some "length" => .length
  | some "content_filter" => .contentFilter
  | some "tool_calls" => .toolCalls
  | _ => .other

-- ---------------------------------------------------------------------------
-- Adapter resolver (`adapters/index.ts`).
-- ---------------------------------------------------------------------------

/-- `AdapterType` discriminant from `adapters/types.ts`. -/
inductive AdapterType where
  | openai
  | openaiLegacy
  | anthropic
deriving DecidableEq, Repr

/-- Which adapter class `resolveAdapter` instantiated. -/
inductive ResolvedAdapter where
  | openAIAdapter
  | openAILegacyAdapter
deriving DecidableEq, Repr

/-- A model-id pattern: either a literal prefix (all source regexes other
than `/^o\d/i` are literal-prefix regexes) or the letter `o` followed by a
decimal digit. All patterns are applied to the lowercased id, so the `/i`
flag is inert. -/
inductive ModelIdPattern where
  | prefixPat (p : String)
  | oDigit
deriving DecidableEq, Repr

/-- ASCII lowercasing, modelling JS `toLowerCase` on the ASCII range
(the range all the model-id patterns live in). -/
def lowerString (s : String) : String :=
  String.mk (s.toList.map Char.toLower)

/-- Regex test of a pattern against the (already lowercased) model id. -/
def patternTest (pat : ModelIdPattern) (id : String) : Bool :=
  match pat with
  | .prefixPat p => List.isPrefixOf p.toList id.toList
  | .oDigit =>
    match id.toList with
    | c₁ :: c₂ :: _ => c₁ = 'o' && c₂.isDigit
    | _ => false

/-- `OPENAI_PATTERNS`: o-series and gpt-5+/gpt-4.5 ids. -/
def OPENAI_PATTERNS : List ModelIdPattern :=
  [.oDigit, .prefixPat "gpt-5", .prefixPat "gpt-4.5"]

/-- `OPENAI_LEGACY_PATTERNS`: gpt-4o / gpt-4 / gpt-35 / gpt-3.5 ids. -/
def OPENAI_LEGACY_PATTERNS : List ModelIdPattern :=
  [.prefixPat "gpt-4o", .prefixPat "gpt-4", .prefixPat "gpt-35", .prefixPat "gpt-3.5"]

/-- `detectAdapterType(modelId)`: legacy patterns are tried first, then the
modern patterns, and an id matching neither defaults to `openai`. -/
def detectAdapterType (modelId : String) : AdapterType :=
  let id := lowerString modelId
  if OPENAI_LEGACY_PATTERNS.any (patternTest · id) then .openaiLegacy
  else if OPENAI_PATTERNS.any (patternTest · id) then .openai
  else .openai

/-- The message of the error thrown for the unimplemented `anthropic`
family (reconstructed verbatim, the apostrophes via `quoteChar`). -/
def anthropicNotImplementedMessage : String :=
  "@nquandt/azure-ai-sdk: adapterType " ++ quoteChar ++ "anthropic" ++ quoteChar
    ++ " is not yet implemented."

/-- `resolveAdapter(modelId, adapterType, idGenerator)`: explicit type wins,
otherwise the heuristic; the `anthropic` case throws. The thrown error is
modelled as `Except.error` carrying the message. -/
def resolveAdapter (modelId : String) (adapterType : Option AdapterType) :
    Except String ResolvedAdapter :=
  let resolved := adapterType.getD (detectAdapterType modelId)
  match resolved with
  | .openai => .ok .openAIAdapter
  | .openaiLegacy => .ok .openAILegacyAdapter
  | .anthropic => .error anthropicNotImplementedMessage

-- ---------------------------------------------------------------------------
-- Streaming wire chunks (the zod `openAIChunkSchema` of `openai-adapter.ts`).
-- ---------------------------------------------------------------------------

/-- One entry of `delta.tool_calls` in a streaming chunk: wire index,
optional id, and the (both-nullish) `function.name` / `function.arguments`
fields. The enclosing `function` object is required by the schema, so it is
flattened here. -/
structure ToolCallDelta where
  index : Int
  id : Option String := none
  name : Option String := none
  arguments : Option String := none
deriving DecidableEq, Repr

/-- The `delta` object of one streamed choice. -/
structure DeltaObj where
  content : Option String := none
  tool_calls : Option (List ToolCallDelta) := none
deriving DecidableEq, Repr

/-- One choice of a streaming chunk. -/
structure ChunkChoice where
  delta : DeltaObj
  finish_reason : Option String := none
deriving DecidableEq, Repr

/-- The (nullish-field) `usage` object of a streaming chunk. -/
structure ChunkUsage where
  prompt_tokens : Option Nat := none
  completion_tokens : Option Nat := none
deriving DecidableEq, Repr

/-- A schema-validated streaming chunk (`id`/`model` fields are unused by
the parser and omitted). -/
structure Chunk where
  choices : List ChunkChoice := []
  usage : Option ChunkUsage := none
deriving DecidableEq, Repr

/-- A `ParseResult` fed to `parseChunk`: `none` models a chunk that failed
schema validation (`chunk.success === false`). -/
def ChunkParseResult : Type := Option Chunk

-- ---------------------------------------------------------------------------
-- Normalized stream events (`ParsedStreamChunk` of `adapters/types.ts`).
-- ---------------------------------------------------------------------------

/-- Normalized stream events. The `error` payload is irrelevant to every
claim and dropped. -/
inductive StreamEvent where
  | textStart (id : String)
  | textDelta (id : String) (delta : String)
  | textEnd (id : String)
  | toolInputStart (id : String) (toolName : String)
  | toolInputDelta (id : String) (delta : String)
  | toolInputEnd (id : String)
  | toolCall (toolCallId : String) (toolName : String) (input : String)
  | finish (finishReason : FinishReason) (inputTokens outputTokens : Option Nat)
  | errorEvent
deriving DecidableEq, Repr

-- ---------------------------------------------------------------------------
-- Streaming state of `OpenAIAdapter` (instance fields used by
-- `parseChunk`/`flush`; shared unchanged by `OpenAILegacyAdapter`).
-- ---------------------------------------------------------------------------

/-- One value of the `toolCallAccumulators` map. -/
structure ToolAcc where
  id : String
  name : String
  argumentsText : String
deriving DecidableEq, Repr

/-- The adapter's mutable streaming state. `toolCallAccumulators` models the
JS `Map<number, …>` as an insertion-ordered association list, `openTextIds`
models the JS `Set<string>` as an insertion-ordered duplicate-free list, and
`genCount` counts how often the injected `generateId` thunk has fired. -/
structure StreamState where
  finishReason : FinishReason := .other
  inputTokens : Option Nat := none
  outputTokens : Option Nat := none
  toolCallAccumulators : List (Int × ToolAcc) := []
  openTextIds : List String := []
  genCount : Nat := 0
deriving DecidableEq, Repr

/-- The fresh state a newly constructed adapter starts a stream with. -/
def initState : StreamState := {}

/-- `Map.get` on the insertion-ordered association list. -/
def mapLookup (m : List (Int × ToolAcc)) (k : Int) : Option ToolAcc :=
  match m with
  | [] => none
  | p :: rest => if p.1 = k then some p.2 else mapLookup rest k

/-- `Map.set` on an existing key: update in place, preserving order. -/
def mapUpdate (m : List (Int × ToolAcc)) (k : Int) (f : ToolAcc → ToolAcc) :
    List (Int × ToolAcc) :=
  m.map (fun p => if p.1 = k then (p.1, f p.2) else p)

/-- The truthiness test JS applies to a nullish string
(`if (tc.function?.arguments)`, `if (delta.content)`): present and
non-empty. -/
def truthy (s : Option String) : Bool :=
  match s with
  | some v => v ≠ ""
  | none => false

/-- Processing of one entry of `delta.tool_calls` (the body of the
`for (const tc of delta.tool_calls)` loop of `OpenAIAdapter.parseChunk`).
`gen` is the injected id generator, indexed by how often it has fired. -/
def processToolCallDelta (gen : Nat → String) (s : StreamState)
    (tc : ToolCallDelta) : StreamState × List StreamEvent :=
  match mapLookup s.toolCallAccumulators tc.index with
  | none =>
    let idAndCount : String × Nat :=
      match tc.id with
      | some i => (i, s.genCount)
      | none => (gen s.genCount, s.genCount + 1)
    let toolCallId := idAndCount.1
    let acc : ToolAcc :=
      { id := toolCallId
        name := tc.name.getD ""
        argumentsText := tc.arguments.getD "" }
    let s' := { s with
      toolCallAccumulators := s.toolCallAccumulators ++ [(tc.index, acc)]
      genCount := idAndCount.2 }
    let evs := [StreamEvent.toolInputStart toolCallId acc.name]
      ++ (if truthy tc.arguments then
            [StreamEvent.toolInputDelta toolCallId (tc.arguments.getD "")]
          else [])
    (s', evs)
  | some acc =>
    let argsDelta := tc.arguments.getD ""
    let s' := { s with
      toolCallAccumulators := mapUpdate s.toolCallAccumulators tc.index
        (fun a => { a with argumentsText := a.argumentsText ++ argsDelta }) }
    (s', if argsDelta ≠ "" then [StreamEvent.toolInputDelta acc.id argsDelta] else [])

/-- Fold of `processToolCallDelta` over a chunk's tool-call delta list. -/
def processToolCallDeltas (gen : Nat → String) (s : StreamState) :
    List ToolCallDelta → StreamState × List StreamEvent
  | [] => (s, [])
  | tc :: rest =>
    let r₁ := processToolCallDelta gen s tc
    let r₂ := processToolCallDeltas gen r₁.1 rest
    (r₂.1, r₁.2 ++ r₂.2)

/-- Processing of one choice of a chunk: text delta (single span id
`text-0`), tool-call deltas, then the finish-reason overwrite. -/
def processChoice (gen : Nat → String) (s : StreamState) (c : ChunkChoice) :
    StreamState × List StreamEvent :=
  let r₁ : StreamState × List StreamEvent :=
    match c.delta.content with
    | some t =>
      if t ≠ "" then
        if s.openTextIds.contains "text-0" then
          (s, [StreamEvent.textDelta "text-0" t])
        else
          ({ s with openTextIds := s.openTextIds ++ ["text-0"] },
           [StreamEvent.textStart "text-0", StreamEvent.textDelta "text-0" t])
      else (s, [])
    | none => (s, [])
  let r₂ : StreamState × List StreamEvent :=
    match c.delta.tool_calls with
    | some tcs => processToolCallDeltas gen r₁.1 tcs
    | none => (r₁.1, [])
  let s₃ : StreamState :=
    match c.finish_reason with
    | some r => { r₂.1 with finishReason := mapFinishReason (some r) }
    | none => r₂.1
  (s₃, r₁.2 ++ r₂.2)

/-- Fold of `processChoice` over a chunk's choices. -/
def processChoices (gen : Nat → String) (s : StreamState) :
    List ChunkChoice → StreamState × List StreamEvent
  | [] => (s, [])
  | c :: rest =>
    let r₁ := processChoice gen s c
    let r₂ := processChoices gen r₁.1 rest
    (r₂.1, r₁.2 ++ r₂.2)

/-- `OpenAIAdapter.parseChunk`: a failed parse emits one error event; a
successful chunk first overwrites the usage snapshot (when a usage object
is present), then processes every choice. -/
def parseChunkFn (gen : Nat → String) (s : StreamState) (pr : ChunkParseResult) :
    StreamState × List StreamEvent :=
  match pr with
  | none => (s, [StreamEvent.errorEvent])
  | some value =>
    let s₁ :=
      match value.usage with
      | some u => { s with inputTokens := u.prompt_tokens, outputTokens := u.completion_tokens }
      | none => s
    processChoices gen s₁ value.choices

/-- A whole streaming run of `parseChunk` calls, threading the adapter
state and concatenating the emitted events. -/
def runFrom (gen : Nat → String) (s : StreamState) :
    List ChunkParseResult → StreamState × List StreamEvent
  | [] => (s, [])
  | pr :: rest =>
    let r₁ := parseChunkFn gen s pr
    let r₂ := runFrom gen r₁.1 rest
    (r₂.1, r₁.2 ++ r₂.2)

/-- The `tool-input-end` + `tool-call` event pair emitted at flush for
each accumulator entry, in insertion order. -/
def flushPairs : List (Int × ToolAcc) → List StreamEvent
  | [] => []
  | p :: rest =>
    StreamEvent.toolInputEnd p.2.id
      :: StreamEvent.toolCall p.2.id p.2.name p.2.argumentsText
      :: flushPairs rest

/-- `OpenAIAdapter.flush`: close open text spans, then emit
`tool-input-end` + `tool-call` for every accumulator entry in insertion
order, then the single terminal finish event. -/
def flushFn (s : StreamState) : List StreamEvent :=
  (s.openTextIds.map StreamEvent.textEnd)
    ++ flushPairs s.toolCallAccumulators
    ++ [StreamEvent.finish s.finishReason s.inputTokens s.outputTokens]

/-- The adapter state after a full run of `parseChunk` calls from a fresh
adapter. -/
def runState (gen : Nat → String) (chunks : List ChunkParseResult) : StreamState :=
  (runFrom gen initState chunks).1

/-- The complete event sequence of one streaming run: every event emitted
by the `parseChunk` calls, in order, followed by the `flush` events. -/
def runStream (gen : Nat → String) (chunks : List ChunkParseResult) :
    List StreamEvent :=
  (runFrom gen initState chunks).2 ++ flushFn (runState gen chunks)

-- ---------------------------------------------------------------------------
-- Derived notions used to state the streaming claims.
-- ---------------------------------------------------------------------------

/-- The id carried by an event (the `toolCallId` for a `tool-call` event);
`finish` and `error` events carry none. -/
def eventId (e : StreamEvent) : Option String :=
  match e with
  | .textStart i | .textDelta i _ | .textEnd i => some i
  | .toolInputStart i _ | .toolInputDelta i _ | .toolInputEnd i => some i
  | .toolCall i _ _ => some i
  | .finish _ _ _ | .errorEvent => none

/-- All events of a run carrying the given id, in emission order. -/
def evsFor (i : String) (evs : List StreamEvent) : List StreamEvent :=
  evs.filter (fun e => eventId e = some i)

/-- Concatenation, in emission order, of the payloads of all
`tool-input-delta` events carrying the given id. -/
def deltaConcat (i : String) : List StreamEvent → String
  | [] => ""
  | .toolInputDelta j d :: rest =>
    (if j = i then d else "") ++ deltaConcat i rest
  | _ :: rest => deltaConcat i rest

/-- The ids allocated to wire indices over a whole run (one per
accumulator entry, in first-appearance order of the indices). -/
def allocatedIds (gen : Nat → String) (chunks : List ChunkParseResult) :
    List String :=
  (runState gen chunks).toolCallAccumulators.map (fun p => p.2.id)

/-- The per-id event-shape invariant of claim C2: the events carrying a
given id are either absent, a complete text span, or a complete tool span
whose `tool-call` follows its `tool-input-end`. In particular each id has
at most one start and at most one end, in the order start, deltas, end. -/
def spanShape (i : String) (evs : List StreamEvent) : Prop :=
  evsFor i evs = []
  ∨ (∃ ds : List String,
      evsFor i evs = StreamEvent.textStart i
        :: (ds.map (StreamEvent.textDelta i) ++ [StreamEvent.textEnd i]))
  ∨ (∃ (n inp : String) (ds : List String),
      evsFor i evs = StreamEvent.toolInputStart i n
        :: (ds.map (StreamEvent.toolInputDelta i)
            ++ [StreamEvent.toolInputEnd i, StreamEvent.toolCall i n inp]))

/-- Is the event the terminal finish event? -/
def isFinish (e : StreamEvent) : Bool :=
  match e with
  | .finish _ _ _ => true
  | _ => false

/-- Is the event a span-close (`text-end`/`tool-input-end`), `tool-call`
or `finish` event? `parseChunk` never emits these; they all come from
`flush`. -/
def isCloseOrTerminal (e : StreamEvent) : Bool :=
  match e with
  | .textEnd _ | .toolInputEnd _ | .toolCall _ _ _ | .finish _ _ _ => true
  | _ => false

/-- The tool-call deltas one choice carries (none when `tool_calls` is
absent). -/
def choiceToolDeltas (ch : ChunkChoice) : List ToolCallDelta :=
  ch.delta.tool_calls.getD []

/-- The tool-call deltas one parse result carries, in processing order
(failed chunks contribute nothing). -/
def chunkToolDeltas : ChunkParseResult → List ToolCallDelta
  | none => []
  | some c => c.choices.foldr (fun ch a => choiceToolDeltas ch ++ a) []

/-- All tool-call deltas of a run, flattened in processing order
(chunk by chunk, choice by choice, entry by entry). -/
def flatToolDeltas (chunks : List ChunkParseResult) : List ToolCallDelta :=
  chunks.foldr (fun pr acc => chunkToolDeltas pr ++ acc) []

/-- The tool-call deltas of a run arriving at a given wire index, in
arrival order. -/
def deltasAtIndex (k : Int) (l : List ToolCallDelta) : List ToolCallDelta :=
  l.filter (fun tc => tc.index = k)

/-- Concatenation of a list of strings, in order. -/
def strConcat : List String → String
  | [] => ""
  | s :: rest => s ++ strConcat rest

/-- The accumulated argument text a wire index ends the run with: the
concatenation of the `function.arguments` fragments (absent ones read as
`""`) of its deltas, in arrival order. -/
def indexArgs (chunks : List ChunkParseResult) (k : Int) : String :=
  strConcat ((deltasAtIndex k (flatToolDeltas chunks)).map
    (fun tc => tc.arguments.getD ""))

/-- The distinct wire indices of a run, in first-appearance order. -/
def firstOcc : List Int → List Int
  | [] => []
  | k :: rest => k :: (firstOcc rest).filter (fun j => j ≠ k)

/-- The distinct wire indices a run's tool deltas arrive at, in
first-appearance order. -/
def seenIndices (chunks : List ChunkParseResult) : List Int :=
  firstOcc ((flatToolDeltas chunks).map (fun tc => tc.index))

/-- The argument strings carried by the run's `tool-call` events, in
emission order. -/
def toolCallInputs (evs : List StreamEvent) : List String :=
  evs.filterMap (fun e =>
    match e with
    | .toolCall _ _ inp => some inp
    | _ => none)

-- ---------------------------------------------------------------------------
-- Abstract prompts (`LanguageModelV2CallOptions['prompt']`).
-- ---------------------------------------------------------------------------

/-- An opaque JSON value. The source never inspects these values (tool
schemas, structured tool inputs/outputs); it only ever serializes them with
`JSON.stringify`, so they are represented by that rendering. -/
structure JsonValue where
  render : String
deriving DecidableEq, Repr

/-- `JSON.stringify` on an opaque value. -/
def jsonStringify (v : JsonValue) : String := v.render

/-- The `data` of a user file part: a `URL`, a base64 string, or raw
bytes (`Uint8Array`, bytes as naturals below 256). -/
inductive FileData where
  | url (href : String)
  | b64 (s : String)
  | bytes (bs : List Nat)
deriving DecidableEq, Repr

/-- A content part of a user message. -/
inductive UserPart where
  | text (t : String)
  | file (data : FileData) (mediaType : String)
deriving DecidableEq, Repr

/-- The `input` of an abstract tool-call part: already a string, or a
structured value to be `JSON.stringify`ed. -/
inductive ToolCallInput where
  | str (s : String)
  | jsonVal (v : JsonValue)
deriving DecidableEq, Repr

/-- A content part of an assistant message. `reasoning` stands for the
part kinds the converter's `switch` silently skips. -/
inductive AssistantPart where
  | text (t : String)
  | toolCall (toolCallId : String) (toolName : String) (input : ToolCallInput)
  | reasoning
deriving DecidableEq, Repr

/-- A part of a `content`-typed tool output: a text part, or a media part
(which carries no `text` and reads as `""`). -/
inductive OutContentPart where
  | text (t : String)
  | media
deriving DecidableEq, Repr

/-- The `output` of an abstract tool-result part. -/
inductive ToolOutput where
  | text (value : String)
  | errorText (value : String)
  | json (value : JsonValue)
  | errorJson (value : JsonValue)
  | content (parts : List OutContentPart)
deriving DecidableEq, Repr

/-- One tool-result part of a tool message. -/
structure ToolResultPart where
  toolCallId : String
  output : ToolOutput
deriving DecidableEq, Repr

/-- An abstract prompt message. -/
inductive PromptMessage where
  | system (content : String)
  | user (content : List UserPart)
  | assistant (content : List AssistantPart)
  | tool (content : List ToolResultPart)
deriving DecidableEq, Repr

-- ---------------------------------------------------------------------------
-- Wire messages (`ChatMessage` of `openai-adapter.ts`).
-- ---------------------------------------------------------------------------

/-- A content part of a wire user message. -/
inductive ChatUserContent where
  | text (text : String)
  | imageUrl (url : String)
deriving DecidableEq, Repr

/-- One entry of a wire assistant message's `tool_calls`
(`type: 'function'` always, hence omitted). -/
structure ToolCallRequest where
  id : String
  name : String
  arguments : String
deriving DecidableEq, Repr

/-- A wire chat message. The assistant's `tool_calls` key is only present
when at least one tool call exists, hence the `Option`. -/
inductive ChatMessage where
  | system (content : String)
  | user (content : List ChatUserContent)
  | assistant (content : Option String) (tool_calls : Option (List ToolCallRequest))
  | tool (tool_call_id : String) (content : String)
deriving DecidableEq, Repr

-- ---------------------------------------------------------------------------
-- Message normalisation (`convertToOpenAIMessages`, `toolResultToString`).
-- ---------------------------------------------------------------------------

/-- The base64 alphabet. -/
def base64Alphabet : List Char :=
  "ABCDEFGHIJKLMNOPQRSTUVWXYZabcdefghijklmnopqrstuvwxyz0123456789+/".toList

/-- Standard base64 with padding (`Buffer.toString('base64')`). -/
def base64Encode : List Nat → String
  | [] => ""
  | [b₁] =>
    String.mk [base64Alphabet.getD (b₁ / 4) 'A',
               base64Alphabet.getD (b₁ % 4 * 16) 'A'] ++ "=="
  | [b₁, b₂] =>
    String.mk [base64Alphabet.getD (b₁ / 4) 'A',
               base64Alphabet.getD (b₁ % 4 * 16 + b₂ / 16) 'A',
               base64Alphabet.getD (b₂ % 16 * 4) 'A'] ++ "="
  | b₁ :: b₂ :: b₃ :: rest =>
    String.mk [base64Alphabet.getD (b₁ / 4) 'A',
               base64Alphabet.getD (b₁ % 4 * 16 + b₂ / 16) 'A',
               base64Alphabet.getD (b₂ % 16 * 4 + b₃ / 64) 'A',
               base64Alphabet.getD (b₃ % 64) 'A'] ++ base64Encode rest

/-- `toolResultToString(output)`: normalise any tool output to one wire
string. -/
def toolResultToString (output : ToolOutput) : String :=
  match output with
  | .text v => v
  | .errorText v => v
  | .json v => jsonStringify v
  | .errorJson v => jsonStringify v
  | .content parts =>
    String.join (parts.map (fun p =>
      match p with
      | .text t => t
      | .media => ""))

/-- Conversion of one user content part; non-image files are silently
dropped. The `startsWith` test of the source is taken at the char level. -/
def convertUserPart (p : UserPart) : List ChatUserContent :=
  match p with
  | .text t => [.text t]
  | .file data mediaType =>
    if List.isPrefixOf ("image/").toList mediaType.toList then
      match data with
      | .url href => [.imageUrl href]
      | .b64 s => [.imageUrl ("data:" ++ mediaType ++ ";base64," ++ s)]
      | .bytes bs => [.imageUrl ("data:" ++ mediaType ++ ";base64," ++ base64Encode bs)]
    else []

/-- The assistant-message fold: text parts concatenate into the optional
`content` (starting from `null`), tool-call parts append to `tool_calls`,
other parts are skipped. -/
def assistantFold (parts : List AssistantPart) :
    Option String × List ToolCallRequest :=
  parts.foldl
    (fun st p =>
      match p with
      | .text t => (some (st.1.getD "" ++ t), st.2)
      | .toolCall callId toolName input =>
        let args :=
          match input with
          | .str s => s
          | .jsonVal v => jsonStringify v
        (st.1, st.2 ++ [{ id := callId, name := toolName, arguments := args }])
      | .reasoning => st)
    (none, [])

/-- `convertToOpenAIMessages(prompt)`. -/
def convertToOpenAIMessages (prompt : List PromptMessage) : List ChatMessage :=
  prompt.foldr
    (fun m acc =>
      (match m with
       | .system c => [ChatMessage.system c]
       | .user parts => [ChatMessage.user (parts.map convertUserPart).flatten]
       | .assistant parts =>
         let st := assistantFold parts
         [ChatMessage.assistant st.1 (if st.2.length > 0 then some st.2 else none)]
       | .tool parts =>
         parts.map (fun p => ChatMessage.tool p.toolCallId (toolResultToString p.output)))
        ++ acc)
    []

-- ---------------------------------------------------------------------------
-- Call options and tool setup (`buildToolsAndChoice`).
-- ---------------------------------------------------------------------------

/-- A function tool declaration of the abstract call options. -/
structure FunctionToolDef where
  name : String
  description : Option String := none
  inputSchema : Option JsonValue := none
deriving DecidableEq, Repr

/-- An abstract tool: a function tool or a provider-defined tool (the
latter is filtered out by the builders). -/
inductive ToolDef where
  | function (t : FunctionToolDef)
  | providerDefined
deriving DecidableEq, Repr

/-- A wire tool declaration (`type: 'function'` always, hence omitted). -/
structure WireTool where
  name : String
  description : Option String := none
  parameters : Option JsonValue := none
deriving DecidableEq, Repr

/-- The abstract tool-choice directive. -/
inductive ToolChoiceOpt where
  | auto
  | choiceNone
  | required
  | tool (toolName : String)
deriving DecidableEq, Repr

/-- The wire tool-choice value: one of the literal strings, or the
`{type: 'function', function: {name}}` object. -/
inductive WireToolChoice where
  | mode (s : String)
  | byName (name : String)
deriving DecidableEq, Repr

/-- An unsupported-setting warning. -/
inductive Warning where
  | unsupportedSetting (setting : String)
deriving DecidableEq, Repr

/-- The `responseFormat` directive. -/
inductive RespFormat where
  | textFormat
  | jsonFormat
deriving DecidableEq, Repr

/-- `LanguageModelV2CallOptions`, restricted to the fields the builders
read. Sampling parameters are rationals: the source only compares them to
`0` and copies them, so this models the JS numbers exactly. -/
structure CallOptions where
  prompt : List PromptMessage := []
  maxOutputTokens : Option Nat := none
  temperature : Option Rat := none
  topP : Option Rat := none
  topK : Option Rat := none
  presencePenalty : Option Rat := none
  frequencyPenalty : Option Rat := none
  stopSequences : Option (List String) := none
  seed : Option Int := none
  tools : Option (List ToolDef) := none
  toolChoice : Option ToolChoiceOpt := none
  responseFormat : Option RespFormat := none
deriving DecidableEq, Repr

/-- Result triple of `buildToolsAndChoice`. -/
structure ToolsAndChoice where
  tools : Option (List WireTool)
  tool_choice : Option WireToolChoice
  warnings : List Warning
deriving DecidableEq, Repr

/-- `buildToolsAndChoice(options)`: unsupported-setting warnings, the wire
tool list (only when a non-empty tool list was supplied) and the wire
tool-choice. -/
def buildToolsAndChoice (options : CallOptions) : ToolsAndChoice :=
  let warnings : List Warning :=
    (if options.topK.isSome then [Warning.unsupportedSetting "topK"] else [])
      ++ (if options.presencePenalty.isSome then
            [Warning.unsupportedSetting "presencePenalty"] else [])
      ++ (if options.frequencyPenalty.isSome then
            [Warning.unsupportedSetting "frequencyPenalty"] else [])
  let tools : Option (List WireTool) :=
    match options.tools with
    | some l =>
      if l.length > 0 then
        some (l.filterMap (fun t =>
          match t with
          | .function f =>
            some { name := f.name, description := f.description,
                   parameters := f.inputSchema }
          | .providerDefined => none))
      else none
    | none => none
  let tool_choice : Option WireToolChoice :=
    options.toolChoice.map (fun tc =>
      match tc with
      | .auto => .mode "auto"
      | .choiceNone => .mode "none"
      | .required => .mode "required"
      | .tool n => .byName n)
  { tools := tools, tool_choice := tool_choice, warnings := warnings }

-- ---------------------------------------------------------------------------
-- Request bodies of the two adapter families.
-- ---------------------------------------------------------------------------

/-- A JSON value appearing in a request body. -/
inductive BodyVal where
  | str (s : String)
  | num (q : Rat)
  | nat (n : Nat)
  | int (n : Int)
  | msgs (l : List ChatMessage)
  | strList (l : List String)
  | toolsVal (l : List WireTool)
  | toolChoiceVal (c : WireToolChoice)
deriving DecidableEq, Repr

/-- A request body: a JS object as an insertion-ordered association list
with unique keys. -/
abbrev Body : Type := List (String × BodyVal)

/-- Own-property lookup. -/
def objLookup (o : Body) (k : String) : Option BodyVal :=
  match o with
  | [] => none
  | p :: rest => if p.1 = k then some p.2 else objLookup rest k

/-- Property assignment: replace in place when the key exists, append
otherwise (JS object semantics). -/
def objSet (o : Body) (k : String) (v : BodyVal) : Body :=
  if (objLookup o k).isSome then
    o.map (fun p => if p.1 = k then (p.1, v) else p)
  else o ++ [(k, v)]

/-- `delete obj[k]`. -/
def objDelete (o : Body) (k : String) : Body :=
  o.filter (fun p => p.1 ≠ k)

/-- Drop the keys whose value is `undefined` (the cleanup loop at the end
of `buildRequest`, fused with the object literal that introduced them). -/
def cleanBody (l : List (String × Option BodyVal)) : Body :=
  l.filterMap (fun p => p.2.map (fun v => (p.1, v)))

/-- The synthetic JSON-only instruction text. -/
def jsonInstructionText : String :=
  "Respond with a valid JSON object only. Do not include any markdown formatting or additional text."

/-- The synthetic user-role instruction message appended in JSON response
mode. -/
def jsonInstructionMessage : ChatMessage :=
  .user [.text jsonInstructionText]

/-- `OpenAIAdapter.buildRequest` (family A / `openai`): emits
`max_completion_tokens`, and suppresses a temperature/top-p of exactly 0. -/
def openAIBuildRequest (options : CallOptions) (modelId : String)
    (modelInBody : Bool) : Body × List Warning :=
  let tw := buildToolsAndChoice options
  let messages₀ := convertToOpenAIMessages options.prompt
  let messages :=
    if options.responseFormat = some .jsonFormat then
      messages₀ ++ [jsonInstructionMessage]
    else messages₀
  let explicitTemperature : Option Rat :=
    match options.temperature with
    | some t => if t ≠ 0 then some t else none
    | none => none
  let explicitTopP : Option Rat :=
    match options.topP with
    | some p => if p ≠ 0 then some p else none
    | none => none
  let body : List (String × Option BodyVal) :=
    (if modelInBody then [("model", some (BodyVal.str modelId))] else [])
      ++ [("messages", some (BodyVal.msgs messages)),
          ("max_completion_tokens", options.maxOutputTokens.map BodyVal.nat),
          ("temperature", explicitTemperature.map BodyVal.num),
          ("top_p", explicitTopP.map BodyVal.num),
          ("stop", options.stopSequences.map BodyVal.strList),
          ("seed", options.seed.map BodyVal.int)]
      ++ (match tw.tools with
          | some ts => [("tools", some (BodyVal.toolsVal ts))]
          | none => [])
      ++ (match tw.tool_choice with
          | some c => [("tool_choice", some (BodyVal.toolChoiceVal c))]
          | none => [])
  (cleanBody body, tw.warnings)

/-- `OpenAILegacyAdapter.buildRequest` (family B / `openai-legacy`):
delegates to the parent, renames `max_completion_tokens` to `max_tokens`,
re-converts and overwrites `messages`, and re-applies the raw temperature
and top-p values (including 0). The trailing cleanup loop of the source is
a no-op here: no step below introduces an undefined value. -/
def openAILegacyBuildRequest (options : CallOptions) (modelId : String)
    (modelInBody : Bool) : Body × List Warning :=
  let parent := openAIBuildRequest options modelId modelInBody
  let body := parent.1
  let maxCT := objLookup body "max_completion_tokens"
  let rest := objDelete body "max_completion_tokens"
  let legacyBody : Body :=
    rest ++ (match maxCT with
             | some v => [("max_tokens", v)]
             | none => [])
  let legacyBody := objSet legacyBody "messages"
    (BodyVal.msgs (convertToOpenAIMessages options.prompt))
  let legacyBody :=
    match options.temperature with
    | some t => objSet legacyBody "temperature" (BodyVal.num t)
    | none => legacyBody
  let legacyBody :=
    match options.topP with
    | some p => objSet legacyBody "top_p" (BodyVal.num p)
    | none => legacyBody
  (legacyBody, parent.2)

-- ---------------------------------------------------------------------------
-- Per-model settings (`AzureFoundryChatSettings`) and the spec-modelled
-- settings fallback.
-- ---------------------------------------------------------------------------

/-- `AzureFoundryChatSettings` (`azure-foundry-chat-options.ts`). -/
structure ChatSettings where
  adapterType : Option AdapterType := none
  maxTokens : Option Nat := none
  temperature : Option Rat := none
  topP : Option Rat := none
deriving DecidableEq, Repr

/-- Modelled from the spec: the adapter-wiring language-model class (the
current `AzureFoundryChatLanguageModel.getArgs`, which resolves the adapter
and merges per-model settings into the call options before delegating to
`buildRequest`) is not present under `src/`; per spec §4.2 the token-limit
value it sends is `callOptions.maxOutputTokens ?? modelSettings.maxTokens`. -/
def effectiveMaxOutputTokens (settings : ChatSettings) (options : CallOptions) :
    Option Nat :=
  match options.maxOutputTokens with
  | some v => some v
  | none => settings.maxTokens

/-- Modelled from the spec: the call options the missing wiring class hands
to the adapter, with the per-model token-limit fallback applied. -/
def withTokenFallback (settings : ChatSettings) (options : CallOptions) :
    CallOptions :=
  { options with maxOutputTokens := effectiveMaxOutputTokens settings options }

-- ---------------------------------------------------------------------------
-- The run invariant of the streaming accumulator.
-- ---------------------------------------------------------------------------

/-- The ids stored in the accumulator map, in insertion order. -/
def accIds (s : StreamState) : List String :=
  s.toolCallAccumulators.map (fun p => p.2.id)

/-- The invariant relating the adapter state `s`, the events `evs` emitted
so far, and the flattened list `l` of tool-call deltas processed so far.
It holds after every prefix of a streaming run and carries everything the
streaming claims need:
* (A) only the single text span id `text-0` is ever opened;
* (B) `parseChunk` never emits close, `tool-call` or finish events;
* (K) every `tool-input-delta` carries an allocated id and a non-empty payload;
* (D) ids never allocated carry no events;
* (E) an open text span's events are a start followed by its deltas;
* (F) when all allocated ids are distinct and none collides with `text-0`,
  each accumulator's events are its start followed by its deltas, whose
  concatenation is the accumulated text;
* (G) with distinct allocated ids, the concatenation of an accumulator id's
  delta payloads equals the accumulated text;
* (J) each accumulator's start event has been emitted;
* (H) an index has an accumulator entry iff a delta for it has arrived; the
  entry's id comes from the first such delta (its wire id when present,
  otherwise a generated id), its name from that delta's `function.name`,
  and its text is the concatenation of all its deltas' argument fragments;
* (I) the accumulator keys are the distinct indices in first-arrival order. -/
def MInv (gen : Nat → String) (s : StreamState) (evs : List StreamEvent)
    (l : List ToolCallDelta) : Prop :=
  (s.openTextIds = [] ∨ s.openTextIds = ["text-0"])
  ∧ (∀ e ∈ evs, isCloseOrTerminal e = false)
  ∧ (∀ i d, StreamEvent.toolInputDelta i d ∈ evs → i ∈ accIds s ∧ d ≠ "")
  ∧ (∀ i, i ∉ accIds s → i ∉ s.openTextIds → evsFor i evs = [])
  ∧ ("text-0" ∉ accIds s → "text-0" ∈ s.openTextIds →
      ∃ ds : List String, evsFor "text-0" evs
        = StreamEvent.textStart "text-0" :: ds.map (StreamEvent.textDelta "text-0"))
  ∧ ((accIds s).Nodup → "text-0" ∉ accIds s →
      ∀ p ∈ s.toolCallAccumulators,
        ∃ ds : List String, (∀ d ∈ ds, d ≠ "")
          ∧ evsFor p.2.id evs
              = StreamEvent.toolInputStart p.2.id p.2.name
                  :: ds.map (StreamEvent.toolInputDelta p.2.id)
          ∧ strConcat ds = p.2.argumentsText)
  ∧ ((accIds s).Nodup → ∀ p ∈ s.toolCallAccumulators,
      deltaConcat p.2.id evs = p.2.argumentsText)
  ∧ (∀ p ∈ s.toolCallAccumulators,
      StreamEvent.toolInputStart p.2.id p.2.name ∈ evs)
  ∧ (∀ k : Int,
      (deltasAtIndex k l = [] ↔ mapLookup s.toolCallAccumulators k = none)
      ∧ ∀ tc₀ t, deltasAtIndex k l = tc₀ :: t →
          ∃ acc, mapLookup s.toolCallAccumulators k = some acc
            ∧ (∀ w, tc₀.id = some w → acc.id = w)
            ∧ (tc₀.id = none → ∃ m, acc.id = gen m)
            ∧ acc.name = tc₀.name.getD ""
            ∧ acc.argumentsText
                = strConcat ((deltasAtIndex k l).map (fun tc => tc.arguments.getD "")))
  ∧ (s.toolCallAccumulators.map Prod.fst = firstOcc (l.map (fun tc => tc.index)))

-- ---------------------------------------------------------------------------
-- Concrete runs used by counterexamples and witnesses.
-- ---------------------------------------------------------------------------

/-- A concrete deterministic id generator standing in for the injected
`generateId` thunk. -/
def exGen (n : Nat) : String := "generated-" ++ toString n

/-- Helper: a tool-call delta literal. -/
def mkToolDelta (i : Int) (idv nm args : Option String) : ToolCallDelta :=
  { index := i, id := idv, name := nm, arguments := args }

/-- Helper: a single-choice chunk carrying only tool-call deltas (and
optionally a finish reason). -/
def mkToolChunk (tcs : List ToolCallDelta) (fr : Option String) : Chunk :=
  { choices := [{ delta := { content := none, tool_calls := some tcs },
                  finish_reason := fr }],
    usage := none }

/-- A chunk whose two tool-call deltas sit at distinct wire indices but
carry the same wire-supplied id `"a"`. -/
def dupIdChunk : Chunk :=
  mkToolChunk
    [mkToolDelta 0 (some "a") none (some "x"),
     mkToolDelta 1 (some "a") none (some "y")]
    none

/-- First chunk of a well-behaved two-tool-call run: fragments for both
indices, ids `"a"` and `"b"`. -/
def exChunkA1 : Chunk :=
  mkToolChunk
    [mkToolDelta 0 (some "a") (some "alpha") (some "x1"),
     mkToolDelta 1 (some "b") (some "beta") (some "y1")]
    none

/-- Second chunk of the run: continuation fragments, in swapped index
order, then a finish reason. -/
def exChunkA2 : Chunk :=
  mkToolChunk
    [mkToolDelta 1 none none (some "y2"),
     mkToolDelta 0 none none (some "x2")]
    (some "tool_calls")

/-- The same per-index delta subsequences as `exChunkA1`/`exChunkA2`, but
delivered grouped by index instead of interleaved. -/
def exChunkB1 : Chunk :=
  mkToolChunk
    [mkToolDelta 1 (some "b") (some "beta") (some "y1"),
     mkToolDelta 1 none none (some "y2")]
    none

/-- Second chunk of the grouped delivery. -/
def exChunkB2 : Chunk :=
  mkToolChunk
    [mkToolDelta 0 (some "a") (some "alpha") (some "x1"),
     mkToolDelta 0 none none (some "x2")]
    (some "tool_calls")

/-- The interleaved delivery of the well-behaved run. -/
def exRunA : List ChunkParseResult := [some exChunkA1, some exChunkA2]

/-- The grouped delivery of the well-behaved run. -/
def exRunB : List ChunkParseResult := [some exChunkB1, some exChunkB2]

/-- The duplicate-id run. -/
def exRunDup : List ChunkParseResult := [some dupIdChunk]

/-- A concrete call options value requesting JSON-only response mode. -/
def exJsonOptions : CallOptions :=
  { prompt := [PromptMessage.user [UserPart.text "hi"]],
    responseFormat := some .jsonFormat }

/-- First chunk of a run whose index-0 tool call announces wire id `"a"`. -/
def exChunkC1 : Chunk :=
  mkToolChunk [mkToolDelta 0 (some "a") (some "alpha") (some "x")] none

/-- Second chunk: a later delta for the same index carrying a different
wire id, which the accumulator must ignore. -/
def exChunkC2 : Chunk :=
  mkToolChunk [mkToolDelta 0 (some "ZZZ") none (some "y")] (some "tool_calls")

/-- The conflicting-late-id run. -/
def exRunC : List ChunkParseResult := [some exChunkC1, some exChunkC2]

end AzureAiSdk

namespace AzureAiSdk

-- ---------------------------------------------------------------------------
-- Theorems: C7, C8, C9
-- ---------------------------------------------------------------------------

/-- C7: an explicit adapter type always wins over inference (including
forcing the legacy adapter on a modern-matching id); without an explicit
type, legacy patterns are checked before modern ones (an id matching a
legacy pattern is classified legacy even when it also matches a modern
pattern); an id matching neither pattern set resolves to the `openai`
adapter. -/
theorem resolveAdapter_explicit_wins_and_legacy_first (id : String) :
    resolveAdapter id (some .openai) = .ok .openAIAdapter
    ∧ resolveAdapter id (some .openaiLegacy) = .ok .openAILegacyAdapter
    ∧ (OPENAI_LEGACY_PATTERNS.any (patternTest · (lowerString id)) = true →
        resolveAdapter id none = .ok .openAILegacyAdapter)
    ∧ (OPENAI_LEGACY_PATTERNS.any (patternTest · (lowerString id)) = false →
        resolveAdapter id none = .ok .openAIAdapter) := by
  refine ⟨rfl, rfl, ?_, ?_⟩ <;>
    · intro h
      simp [resolveAdapter, detectAdapterType, h]

/-- Witness for C7: `gpt-4.5-preview` matches both a legacy pattern
(`^gpt-4`) and a modern pattern (`^gpt-4.5`) and is classified legacy;
`DeepSeek-R1` matches neither and defaults to the `openai` adapter; an
explicit `openai-legacy` on the modern-matching id `o1` forces the legacy
adapter. -/
theorem resolveAdapter_explicit_wins_witness :
    OPENAI_LEGACY_PATTERNS.any (patternTest · (lowerString "gpt-4.5-preview")) = true
    ∧ OPENAI_PATTERNS.any (patternTest · (lowerString "gpt-4.5-preview")) = true
    ∧ resolveAdapter "gpt-4.5-preview" none = .ok .openAILegacyAdapter
    ∧ OPENAI_LEGACY_PATTERNS.any (patternTest · (lowerString "DeepSeek-R1")) = false
    ∧ resolveAdapter "DeepSeek-R1" none = .ok .openAIAdapter
    ∧ resolveAdapter "o1" (some .openaiLegacy) = .ok .openAILegacyAdapter := by
  refine ⟨by decide, by decide, ?_, by decide, ?_, ?_⟩
  · exact (resolveAdapter_explicit_wins_and_legacy_first "gpt-4.5-preview").2.2.1 (by decide)
  · exact (resolveAdapter_explicit_wins_and_legacy_first "DeepSeek-R1").2.2.2 (by decide)
  · exact (resolveAdapter_explicit_wins_and_legacy_first "o1").2.1

/-- C8: for every model id, resolving the `anthropic` family fails with an
error whose message contains "not yet implemented", and never yields an
adapter of another family. -/
theorem resolveAdapter_anthropic_throws (id : String) :
    resolveAdapter id (some .anthropic) = .error anthropicNotImplementedMessage
    ∧ ("not yet implemented").toList <:+: anthropicNotImplementedMessage.toList
    ∧ ∀ a : ResolvedAdapter, resolveAdapter id (some .anthropic) ≠ .ok a := by
  refine ⟨rfl, by decide, ?_⟩
  intro a h
  simp [resolveAdapter] at h

/-- C9: the finish-reason mapper sends the four known wire strings to their
fixed targets, and everything else — unrecognized strings as well as
null/absent — to `other`. -/
theorem mapFinishReason_table (s : String)
    (h : s ∉ ["stop", "length", "content_filter", "tool_calls"]) :
    mapFinishReason (some "stop") = .stop
    ∧ mapFinishReason (some "length") = .length
    ∧ mapFinishReason (some "content_filter") = .contentFilter
    ∧ mapFinishReason (some "tool_calls") = .toolCalls
    ∧ mapFinishReason (some s) = .other
    ∧ mapFinishReason none = .other := by
  refine ⟨rfl, rfl, rfl, rfl, ?_, rfl⟩
  simp only [List.mem_cons, List.not_mem_nil, or_false, not_or] at h
  obtain ⟨h₁, h₂, h₃, h₄⟩ := h
  simp only [mapFinishReason]
  split <;> first
    | rfl
    | (rename_i heq; cases heq; first
        | exact absurd rfl h₁ | exact absurd rfl h₂
        | exact absurd rfl h₃ | exact absurd rfl h₄)

/-- Witness for C9 at the concrete unknown string "banana". -/
theorem mapFinishReason_table_witness :
    ("banana" : String) ∉ ["stop", "length", "content_filter", "tool_calls"]
    ∧ mapFinishReason (some "banana") = .other :=
  ⟨by decide, (mapFinishReason_table "banana" (by decide)).2.2.2.2.1⟩

-- ---------------------------------------------------------------------------
-- Helper lemmas: JS object operations.
-- ---------------------------------------------------------------------------

theorem objLookup_append (a b : Body) (k : String) :
    objLookup (a ++ b) k = (objLookup a k <|> objLookup b k) := by
  induction a with
  | nil => rfl
  | cons p rest ih =>
    simp only [List.cons_append, objLookup]
    split <;> simp [ih]

theorem objLookup_setMap_self (o : Body) (k : String) (v : BodyVal) :
    objLookup (o.map (fun p => if p.1 = k then (p.1, v) else p)) k
      = (objLookup o k).map (fun _ => v) := by
  induction o with
  | nil => rfl
  | cons p rest ih =>
    by_cases hpk : p.1 = k
    · simp [objLookup, hpk]
    · simp only [List.map_cons, if_neg hpk, objLookup, ih]

theorem objLookup_setMap_ne (o : Body) (k k' : String) (v : BodyVal)
    (h : k' ≠ k) :
    objLookup (o.map (fun p => if p.1 = k then (p.1, v) else p)) k'
      = objLookup o k' := by
  induction o with
  | nil => rfl
  | cons p rest ih =>
    by_cases hpk : p.1 = k
    · have hne : ¬p.1 = k' := by rw [hpk]; exact fun hh => h hh.symm
      simp only [List.map_cons, if_pos hpk, objLookup, if_neg hne, ih]
    · simp only [List.map_cons, if_neg hpk, objLookup]
      split
      · rfl
      · exact ih

theorem objLookup_objSet_self (o : Body) (k : String) (v : BodyVal) :
    objLookup (objSet o k v) k = some v := by
  unfold objSet
  cases ho : objLookup o k with
  | some w => simp [objLookup_setMap_self, ho]
  | none => simp [ho, objLookup_append, objLookup]

theorem objLookup_objSet_ne (o : Body) (k k' : String) (v : BodyVal)
    (h : k' ≠ k) : objLookup (objSet o k v) k' = objLookup o k' := by
  unfold objSet
  split
  · exact objLookup_setMap_ne o k k' v h
  · rw [objLookup_append]
    cases ho : objLookup o k' with
    | some v' => simp
    | none =>
      have : ¬k = k' := fun hh => h hh.symm
      simp [objLookup, this]

theorem objLookup_objDelete_self (o : Body) (k : String) :
    objLookup (objDelete o k) k = none := by
  induction o with
  | nil => rfl
  | cons p rest ih =>
    by_cases hpk : p.1 = k
    · simpa [objDelete, List.filter_cons, hpk] using ih
    · simp only [objDelete, List.filter_cons] at ih ⊢
      simp only [decide_eq_true_eq] at ih ⊢
      rw [if_pos hpk]
      simp only [objLookup, if_neg hpk]
      exact ih

theorem objLookup_objDelete_ne (o : Body) (k k' : String) (h : k' ≠ k) :
    objLookup (objDelete o k) k' = objLookup o k' := by
  induction o with
  | nil => rfl
  | cons p rest ih =>
    by_cases hpk : p.1 = k
    · have hne : ¬p.1 = k' := by rw [hpk]; exact fun hh => h hh.symm
      simp only [objDelete, List.filter_cons, decide_eq_true_eq] at ih ⊢
      rw [if_neg (by simp [hpk])]
      rw [ih]
      simp only [objLookup, if_neg hne]
    · simp only [objDelete, List.filter_cons, decide_eq_true_eq] at ih ⊢
      rw [if_pos hpk]
      simp only [objLookup]
      split
      · rfl
      · exact ih

theorem objLookup_cleanBody_not_mem (l : List (String × Option BodyVal))
    (k : String) (h : k ∉ l.map Prod.fst) : objLookup (cleanBody l) k = none := by
  induction l with
  | nil => rfl
  | cons p rest ih =>
    simp only [List.map_cons, List.mem_cons, not_or] at h
    cases hp : p.2 with
    | some v =>
      have : cleanBody (p :: rest) = (p.1, v) :: cleanBody rest := by
        simp [cleanBody, hp]
      rw [this]
      simp only [objLookup]
      rw [if_neg (fun hh => h.1 hh.symm)]
      exact ih h.2
    | none =>
      have : cleanBody (p :: rest) = cleanBody rest := by
        simp [cleanBody, hp]
      rw [this]
      exact ih h.2

theorem objLookup_cleanBody (l : List (String × Option BodyVal)) (k : String)
    (vo : Option BodyVal) (hmem : (k, vo) ∈ l)
    (hnd : (l.map Prod.fst).Nodup) : objLookup (cleanBody l) k = vo := by
  induction l with
  | nil => simp at hmem
  | cons p rest ih =>
    simp only [List.map_cons, List.nodup_cons] at hnd
    rcases List.mem_cons.1 hmem with heq | hmemr
    · subst heq
      cases vo with
      | some v =>
        have : cleanBody ((k, some v) :: rest) = (k, v) :: cleanBody rest := by
          simp [cleanBody]
        rw [this]
        simp [objLookup]
      | none =>
        have : cleanBody ((k, none) :: rest) = cleanBody rest := by
          simp [cleanBody]
        rw [this]
        exact objLookup_cleanBody_not_mem rest k hnd.1
    · have hpk : p.1 ≠ k := by
        intro hh
        exact hnd.1 (hh ▸ (List.mem_map.2 ⟨(k, vo), hmemr, rfl⟩))
      cases hp : p.2 with
      | some v =>
        have : cleanBody (p :: rest) = (p.1, v) :: cleanBody rest := by
          simp [cleanBody, hp]
        rw [this]
        simp only [objLookup]
        rw [if_neg hpk]
        exact ih hmemr hnd.2
      | none =>
        have : cleanBody (p :: rest) = cleanBody rest := by
          simp [cleanBody, hp]
        rw [this]
        exact ih hmemr hnd.2

end AzureAiSdk

namespace AzureAiSdk

-- ---------------------------------------------------------------------------
-- Helper lemmas: request-body lookups of the two adapter families.
-- ---------------------------------------------------------------------------

theorem openAI_body_lookups (options : CallOptions) (modelId : String)
    (modelInBody : Bool) :
    objLookup (openAIBuildRequest options modelId modelInBody).1
        "max_completion_tokens" = options.maxOutputTokens.map BodyVal.nat
    ∧ objLookup (openAIBuildRequest options modelId modelInBody).1
        "max_tokens" = none
    ∧ objLookup (openAIBuildRequest options modelId modelInBody).1
        "temperature"
      = (match options.temperature with
         | some t => if t ≠ 0 then some t else none
         | none => none).map BodyVal.num
    ∧ objLookup (openAIBuildRequest options modelId modelInBody).1
        "top_p"
      = (match options.topP with
         | some p => if p ≠ 0 then some p else none
         | none => none).map BodyVal.num
    ∧ objLookup (openAIBuildRequest options modelId modelInBody).1
        "messages"
      = some (BodyVal.msgs (if options.responseFormat = some .jsonFormat
          then convertToOpenAIMessages options.prompt ++ [jsonInstructionMessage]
          else convertToOpenAIMessages options.prompt)) := by
  have hbody : (openAIBuildRequest options modelId modelInBody).1
      = cleanBody
          ((if modelInBody then [("model", some (BodyVal.str modelId))] else [])
            ++ [("messages", some (BodyVal.msgs
                  (if options.responseFormat = some .jsonFormat
                   then convertToOpenAIMessages options.prompt ++ [jsonInstructionMessage]
                   else convertToOpenAIMessages options.prompt))),
                ("max_completion_tokens", options.maxOutputTokens.map BodyVal.nat),
                ("temperature",
                  (match options.temperature with
                   | some t => if t ≠ 0 then some t else none
                   | none => none).map BodyVal.num),
                ("top_p",
                  (match options.topP with
                   | some p => if p ≠ 0 then some p else none
                   | none => none).map BodyVal.num),
                ("stop", options.stopSequences.map BodyVal.strList),
                ("seed", options.seed.map BodyVal.int)]
            ++ (match (buildToolsAndChoice options).tools with
                | some ts => [("tools", some (BodyVal.toolsVal ts))]
                | none => [])
            ++ (match (buildToolsAndChoice options).tool_choice with
                | some c => [("tool_choice", some (BodyVal.toolChoiceVal c))]
                | none => [])) := rfl
  have hnd : (((if modelInBody then [("model", some (BodyVal.str modelId))] else [])
            ++ [("messages", some (BodyVal.msgs
                  (if options.responseFormat = some .jsonFormat
                   then convertToOpenAIMessages options.prompt ++ [jsonInstructionMessage]
                   else convertToOpenAIMessages options.prompt))),
                ("max_completion_tokens", options.maxOutputTokens.map BodyVal.nat),
                ("temperature",
                  (match options.temperature with
                   | some t => if t ≠ 0 then some t else none
                   | none => none).map BodyVal.num),
                ("top_p",
                  (match options.topP with
                   | some p => if p ≠ 0 then some p else none
                   | none => none).map BodyVal.num),
                ("stop", options.stopSequences.map BodyVal.strList),
                ("seed", options.seed.map BodyVal.int)]
            ++ (match (buildToolsAndChoice options).tools with
                | some ts => [("tools", some (BodyVal.toolsVal ts))]
                | none => [])
            ++ (match (buildToolsAndChoice options).tool_choice with
                | some c => [("tool_choice", some (BodyVal.toolChoiceVal c))]
                | none => [])).map Prod.fst).Nodup := by
    cases modelInBody <;>
      cases (buildToolsAndChoice options).tools <;>
      cases (buildToolsAndChoice options).tool_choice <;>
        simp
  refine ⟨?_, ?_, ?_, ?_, ?_⟩
  · rw [hbody]
    exact objLookup_cleanBody _ _ _ (by simp) hnd
  · rw [hbody]
    apply objLookup_cleanBody_not_mem
    cases modelInBody <;>
      cases (buildToolsAndChoice options).tools <;>
      cases (buildToolsAndChoice options).tool_choice <;>
        simp
  · rw [hbody]
    exact objLookup_cleanBody _ _ _ (by simp) hnd
  · rw [hbody]
    exact objLookup_cleanBody _ _ _ (by simp) hnd
  · rw [hbody]
    exact objLookup_cleanBody _ _ _ (by simp) hnd

end AzureAiSdk

namespace AzureAiSdk

theorem legacy_outer_lookup (options : CallOptions) (modelId : String)
    (modelInBody : Bool) (k : String) (h₁ : k ≠ "temperature")
    (h₂ : k ≠ "top_p") :
    objLookup (openAILegacyBuildRequest options modelId modelInBody).1 k
      = objLookup
          (objSet
            (objDelete (openAIBuildRequest options modelId modelInBody).1
                "max_completion_tokens"
              ++ (match objLookup (openAIBuildRequest options modelId modelInBody).1
                      "max_completion_tokens" with
                  | some v => [("max_tokens", v)]
                  | none => []))
            "messages"
            (BodyVal.msgs (convertToOpenAIMessages options.prompt))) k := by
  unfold openAILegacyBuildRequest
  cases ht : options.temperature with
  | some t =>
    cases hp : options.topP with
    | some p =>
      simp only [ht, hp]
      rw [objLookup_objSet_ne _ _ _ _ h₂, objLookup_objSet_ne _ _ _ _ h₁]
    | none =>
      simp only [ht, hp]
      rw [objLookup_objSet_ne _ _ _ _ h₁]
  | none =>
    cases hp : options.topP with
    | some p =>
      simp only [ht, hp]
      rw [objLookup_objSet_ne _ _ _ _ h₂]
    | none =>
      simp only [ht, hp]

theorem legacy_body_lookups (options : CallOptions) (modelId : String)
    (modelInBody : Bool) :
    objLookup (openAILegacyBuildRequest options modelId modelInBody).1
        "max_completion_tokens" = none
    ∧ objLookup (openAILegacyBuildRequest options modelId modelInBody).1
        "max_tokens" = options.maxOutputTokens.map BodyVal.nat
    ∧ (∀ t, options.temperature = some t →
        objLookup (openAILegacyBuildRequest options modelId modelInBody).1
          "temperature" = some (BodyVal.num t))
    ∧ (∀ p, options.topP = some p →
        objLookup (openAILegacyBuildRequest options modelId modelInBody).1
          "top_p" = some (BodyVal.num p))
    ∧ objLookup (openAILegacyBuildRequest options modelId modelInBody).1
        "messages"
      = some (BodyVal.msgs (convertToOpenAIMessages options.prompt)) := by
  have hA := openAI_body_lookups options modelId modelInBody
  refine ⟨?_, ?_, ?_, ?_, ?_⟩
  · rw [legacy_outer_lookup options modelId modelInBody _ (by decide) (by decide)]
    rw [objLookup_objSet_ne _ _ _ _ (by decide)]
    rw [objLookup_append, objLookup_objDelete_self]
    cases hm : objLookup (openAIBuildRequest options modelId modelInBody).1
        "max_completion_tokens" with
    | some v => simp [objLookup]
    | none => simp [objLookup]
  · rw [legacy_outer_lookup options modelId modelInBody _ (by decide) (by decide)]
    rw [objLookup_objSet_ne _ _ _ _ (by decide)]
    rw [objLookup_append, objLookup_objDelete_ne _ _ _ (by decide), hA.2.1]
    rw [hA.1]
    cases options.maxOutputTokens with
    | some v => simp [objLookup]
    | none => simp [objLookup]
  · intro t ht
    unfold openAILegacyBuildRequest
    cases hp : options.topP with
    | some p =>
      simp only [ht, hp]
      rw [objLookup_objSet_ne _ _ _ _ (by decide), objLookup_objSet_self]
    | none =>
      simp only [ht, hp]
      rw [objLookup_objSet_self]
  · intro p hp
    unfold openAILegacyBuildRequest
    cases ht : options.temperature with
    | some t =>
      simp only [ht, hp]
      rw [objLookup_objSet_self]
    | none =>
      simp only [ht, hp]
      rw [objLookup_objSet_self]
  · rw [legacy_outer_lookup options modelId modelInBody _ (by decide) (by decide)]
    rw [objLookup_objSet_self]

end AzureAiSdk

namespace AzureAiSdk

-- ---------------------------------------------------------------------------
-- Theorems: C4, C5, C6
-- ---------------------------------------------------------------------------

/-- C4: with the spec-modelled per-model settings fallback applied to the
call options, the family-A (`openai`) body names the token limit
`max_completion_tokens` and never `max_tokens`; the family-B
(`openai-legacy`) body names it `max_tokens` and never
`max_completion_tokens`; the value sent is
`callOptions.maxOutputTokens ?? modelSettings.maxTokens`, and the key is
omitted entirely in both families when both are absent. -/
theorem tokenLimit_field_and_fallback (settings : ChatSettings)
    (options : CallOptions) (modelId : String) (modelInBody : Bool) :
    objLookup (openAIBuildRequest (withTokenFallback settings options)
        modelId modelInBody).1 "max_tokens" = none
    ∧ objLookup (openAILegacyBuildRequest (withTokenFallback settings options)
        modelId modelInBody).1 "max_completion_tokens" = none
    ∧ (∀ v, effectiveMaxOutputTokens settings options = some v →
        objLookup (openAIBuildRequest (withTokenFallback settings options)
            modelId modelInBody).1 "max_completion_tokens"
          = some (BodyVal.nat v)
        ∧ objLookup (openAILegacyBuildRequest (withTokenFallback settings options)
            modelId modelInBody).1 "max_tokens" = some (BodyVal.nat v))
    ∧ (effectiveMaxOutputTokens settings options = none →
        objLookup (openAIBuildRequest (withTokenFallback settings options)
            modelId modelInBody).1 "max_completion_tokens" = none
        ∧ objLookup (openAILegacyBuildRequest (withTokenFallback settings options)
            modelId modelInBody).1 "max_tokens" = none) := by
  have hA := openAI_body_lookups (withTokenFallback settings options) modelId modelInBody
  have hB := legacy_body_lookups (withTokenFallback settings options) modelId modelInBody
  have hm : (withTokenFallback settings options).maxOutputTokens
      = effectiveMaxOutputTokens settings options := rfl
  refine ⟨hA.2.1, hB.1, ?_, ?_⟩
  · intro v hv
    constructor
    · rw [hA.1, hm, hv]
      rfl
    · rw [hB.2.1, hm, hv]
      rfl
  · intro hv
    constructor
    · rw [hA.1, hm, hv]
      rfl
    · rw [hB.2.1, hm, hv]
      rfl

/-- Witness for C4: with no per-call value and a per-model `maxTokens` of
7, the family-A body sends `max_completion_tokens = 7` and the family-B
body sends `max_tokens = 7`; with both absent, neither family sends a
token-limit key. -/
theorem tokenLimit_field_and_fallback_witness :
    effectiveMaxOutputTokens { maxTokens := some 7 } {} = some 7
    ∧ objLookup (openAIBuildRequest (withTokenFallback { maxTokens := some 7 } {})
        "m" true).1 "max_completion_tokens" = some (BodyVal.nat 7)
    ∧ objLookup (openAILegacyBuildRequest (withTokenFallback { maxTokens := some 7 } {})
        "m" true).1 "max_tokens" = some (BodyVal.nat 7)
    ∧ effectiveMaxOutputTokens {} {} = none
    ∧ objLookup (openAIBuildRequest (withTokenFallback {} {}) "m" true).1
        "max_completion_tokens" = none
    ∧ objLookup (openAILegacyBuildRequest (withTokenFallback {} {}) "m" true).1
        "max_tokens" = none := by
  have h₁ := (tokenLimit_field_and_fallback { maxTokens := some 7 } {} "m" true).2.2.1
    7 (by rfl)
  have h₂ := (tokenLimit_field_and_fallback {} {} "m" true).2.2.2 (by rfl)
  exact ⟨by rfl, h₁.1, h₁.2, by rfl, h₂.1, h₂.2⟩

/-- C5: the family-A (`openai`) body contains no `temperature` (resp.
`top_p`) key when the caller supplies exactly 0 — the adapter itself has no
per-model override mechanism, so no override can force it — while the
family-B (`openai-legacy`) body always carries the caller's literal value,
including 0. -/
theorem zero_sampling_suppression (options : CallOptions) (modelId : String)
    (modelInBody : Bool) :
    (options.temperature = some 0 →
      objLookup (openAIBuildRequest options modelId modelInBody).1
        "temperature" = none)
    ∧ (options.topP = some 0 →
      objLookup (openAIBuildRequest options modelId modelInBody).1
        "top_p" = none)
    ∧ (∀ t, options.temperature = some t →
      objLookup (openAILegacyBuildRequest options modelId modelInBody).1
        "temperature" = some (BodyVal.num t))
    ∧ (∀ p, options.topP = some p →
      objLookup (openAILegacyBuildRequest options modelId modelInBody).1
        "top_p" = some (BodyVal.num p)) := by
  have hA := openAI_body_lookups options modelId modelInBody
  have hB := legacy_body_lookups options modelId modelInBody
  refine ⟨?_, ?_, hB.2.2.1, hB.2.2.2.1⟩
  · intro ht
    rw [hA.2.2.1, ht]
    rfl
  · intro hp
    rw [hA.2.2.2.1, hp]
    rfl

/-- Witness for C5: at `temperature = 0` and `top_p = 0`, family A omits
both keys while family B sends the literal zeros. -/
theorem zero_sampling_suppression_witness :
    objLookup (openAIBuildRequest { temperature := some 0, topP := some 0 }
      "m" true).1 "temperature" = none
    ∧ objLookup (openAIBuildRequest { temperature := some 0, topP := some 0 }
      "m" true).1 "top_p" = none
    ∧ objLookup (openAILegacyBuildRequest { temperature := some 0, topP := some 0 }
      "m" true).1 "temperature" = some (BodyVal.num 0)
    ∧ objLookup (openAILegacyBuildRequest { temperature := some 0, topP := some 0 }
      "m" true).1 "top_p" = some (BodyVal.num 0) := by
  have h := zero_sampling_suppression { temperature := some 0, topP := some 0 } "m" true
  exact ⟨h.1 rfl, h.2.1 rfl, h.2.2.1 0 rfl, h.2.2.2 0 rfl⟩

/-- C6 (code bug): in JSON response mode the family-A body's message array
is the caller's converted messages with exactly the one synthetic
instruction message appended after them — but the family-B
(`openai-legacy`) adapter overwrites `messages` with a fresh conversion of
the prompt after delegating to the parent, so its body carries no
instruction message at all, contradicting the claim (and the adapter's own
"identical except for token-limit key and temperature handling" comment). -/
theorem legacy_drops_json_instruction :
    objLookup (openAIBuildRequest exJsonOptions "m" false).1 "messages"
      = some (BodyVal.msgs
          (convertToOpenAIMessages exJsonOptions.prompt ++ [jsonInstructionMessage]))
    ∧ objLookup (openAILegacyBuildRequest exJsonOptions "m" false).1 "messages"
      = some (BodyVal.msgs (convertToOpenAIMessages exJsonOptions.prompt))
    ∧ jsonInstructionMessage ∉ convertToOpenAIMessages exJsonOptions.prompt := by
  have hA := (openAI_body_lookups exJsonOptions "m" false).2.2.2.2
  have hB := (legacy_body_lookups exJsonOptions "m" false).2.2.2.2
  refine ⟨?_, hB, ?_⟩
  · rw [hA]
    rfl
  · decide

end AzureAiSdk

namespace AzureAiSdk

-- ---------------------------------------------------------------------------
-- Helper lemmas: strings, events, maps and first occurrences.
-- ---------------------------------------------------------------------------

theorem strConcat_append (a b : List String) :
    strConcat (a ++ b) = strConcat a ++ strConcat b := by
  induction a with
  | nil => simp [strConcat]
  | cons s rest ih => simp [strConcat, ih, String.append_assoc]

theorem strConcat_singleton (s : String) : strConcat [s] = s := by
  simp [strConcat]

theorem evsFor_append (i : String) (a b : List StreamEvent) :
    evsFor i (a ++ b) = evsFor i a ++ evsFor i b := by
  simp [evsFor, List.filter_append]

theorem deltaConcat_append (i : String) (a b : List StreamEvent) :
    deltaConcat i (a ++ b) = deltaConcat i a ++ deltaConcat i b := by
  induction a with
  | nil => simp [deltaConcat]
  | cons e rest ih =>
    cases e <;> simp [deltaConcat, ih, String.append_assoc]

theorem deltaConcat_eq_empty (i : String) (evs : List StreamEvent)
    (h : ∀ d, StreamEvent.toolInputDelta i d ∉ evs) : deltaConcat i evs = "" := by
  induction evs with
  | nil => rfl
  | cons e rest ih =>
    have hrest : ∀ d, StreamEvent.toolInputDelta i d ∉ rest := by
      intro d hd
      exact h d (List.mem_cons_of_mem _ hd)
    cases e with
    | toolInputDelta j d =>
      have hji : ¬j = i := by
        intro hji
        exact h d (by rw [hji]; exact List.mem_cons_self _ _)
      simp [deltaConcat, hji, ih hrest]
    | _ => simpa [deltaConcat] using ih hrest

theorem mem_firstOcc (x : Int) (l : List Int) : x ∈ firstOcc l ↔ x ∈ l := by
  induction l with
  | nil => simp [firstOcc]
  | cons k rest ih =>
    simp only [firstOcc, List.mem_cons, List.mem_filter, decide_eq_true_eq]
    constructor
    · rintro (rfl | ⟨hmem, _⟩)
      · exact Or.inl rfl
      · exact Or.inr (ih.1 hmem)
    · rintro (rfl | hmem)
      · exact Or.inl rfl
      · by_cases hxk : x = k
        · exact Or.inl hxk
        · exact Or.inr ⟨ih.2 hmem, hxk⟩

theorem firstOcc_nodup (l : List Int) : (firstOcc l).Nodup := by
  induction l with
  | nil => simp [firstOcc]
  | cons k rest ih =>
    simp only [firstOcc, List.nodup_cons]
    refine ⟨?_, ih.filter _⟩
    intro hmem
    have hcontra := (List.mem_filter.1 hmem).2
    simp at hcontra

theorem firstOcc_append_not_mem (l : List Int) (x : Int) (h : x ∉ l) :
    firstOcc (l ++ [x]) = firstOcc l ++ [x] := by
  induction l with
  | nil => simp [firstOcc]
  | cons k rest ih =>
    simp only [List.mem_cons, not_or] at h
    have hstep : (k :: rest) ++ [x] = k :: (rest ++ [x]) := rfl
    rw [hstep]
    simp only [firstOcc, ih h.2, List.filter_append]
    simp [h.1]

theorem firstOcc_append_mem (l : List Int) (x : Int) (h : x ∈ l) :
    firstOcc (l ++ [x]) = firstOcc l := by
  induction l with
  | nil => simp at h
  | cons k rest ih =>
    have hstep : (k :: rest) ++ [x] = k :: (rest ++ [x]) := rfl
    rw [hstep]
    simp only [firstOcc]
    rcases List.mem_cons.1 h with rfl | hmem
    · by_cases hr : x ∈ rest
      · rw [ih hr]
      · rw [firstOcc_append_not_mem rest x hr]
        simp [List.filter_append]
    · rw [ih hmem]

theorem mapLookup_append (a b : List (Int × ToolAcc)) (k : Int) :
    mapLookup (a ++ b) k = (mapLookup a k <|> mapLookup b k) := by
  induction a with
  | nil => rfl
  | cons p rest ih =>
    simp only [List.cons_append, mapLookup]
    split <;> simp [ih]

theorem mapLookup_mapUpdate_self (m : List (Int × ToolAcc)) (k : Int)
    (f : ToolAcc → ToolAcc) :
    mapLookup (mapUpdate m k f) k = (mapLookup m k).map f := by
  induction m with
  | nil => rfl
  | cons p rest ih =>
    by_cases hpk : p.1 = k
    · simp [mapUpdate, mapLookup, hpk]
    · simp only [mapUpdate, List.map_cons, if_neg hpk, mapLookup] at ih ⊢
      exact ih

theorem mapLookup_mapUpdate_ne (m : List (Int × ToolAcc)) (k k' : Int)
    (f : ToolAcc → ToolAcc) (h : k' ≠ k) :
    mapLookup (mapUpdate m k f) k' = mapLookup m k' := by
  induction m with
  | nil => rfl
  | cons p rest ih =>
    by_cases hpk : p.1 = k
    · have : ¬p.1 = k' := by rw [hpk]; exact fun hh => h hh.symm
      simp only [mapUpdate, List.map_cons, if_pos hpk, mapLookup, if_neg this] at ih ⊢
      exact ih
    · simp only [mapUpdate, List.map_cons, if_neg hpk, mapLookup] at ih ⊢
      split
      · rfl
      · exact ih

theorem mapUpdate_keys (m : List (Int × ToolAcc)) (k : Int)
    (f : ToolAcc → ToolAcc) :
    (mapUpdate m k f).map Prod.fst = m.map Prod.fst := by
  induction m with
  | nil => rfl
  | cons p rest ih =>
    have hstep : mapUpdate (p :: rest) k f
        = (if p.1 = k then (p.1, f p.2) else p) :: mapUpdate rest k f := rfl
    rw [hstep]
    by_cases hpk : p.1 = k
    · simp only [if_pos hpk, List.map_cons, ih]
    · simp only [if_neg hpk, List.map_cons, ih]

theorem mapLookup_eq_none_iff (m : List (Int × ToolAcc)) (k : Int) :
    mapLookup m k = none ↔ k ∉ m.map Prod.fst := by
  induction m with
  | nil => simp [mapLookup]
  | cons p rest ih =>
    simp only [mapLookup, List.map_cons, List.mem_cons]
    by_cases hpk : p.1 = k
    · simp [hpk]
    · simp only [if_neg hpk, ih]
      constructor
      · intro h
        exact fun hc => hc.elim (fun hh => hpk hh.symm) h
      · intro h
        exact fun hc => h (Or.inr hc)

theorem mapLookup_some_mem (m : List (Int × ToolAcc)) (k : Int) (a : ToolAcc)
    (h : mapLookup m k = some a) : (k, a) ∈ m := by
  induction m with
  | nil => simp [mapLookup] at h
  | cons p rest ih =>
    simp only [mapLookup] at h
    split at h
    · rename_i hpk
      cases h
      simp [← hpk]
    · exact List.mem_cons_of_mem _ (ih h)

theorem mapLookup_of_mem_nodup (m : List (Int × ToolAcc))
    (p : Int × ToolAcc) (h : p ∈ m) (hnd : (m.map Prod.fst).Nodup) :
    mapLookup m p.1 = some p.2 := by
  induction m with
  | nil => simp at h
  | cons q rest ih =>
    simp only [List.map_cons, List.nodup_cons] at hnd
    rcases List.mem_cons.1 h with rfl | hmem
    · simp [mapLookup]
    · have hq : ¬q.1 = p.1 := by
        intro hh
        exact hnd.1 (hh ▸ List.mem_map.2 ⟨p, hmem, rfl⟩)
      simp only [mapLookup, if_neg hq]
      exact ih hmem hnd.2

theorem deltasAtIndex_append (k : Int) (a b : List ToolCallDelta) :
    deltasAtIndex k (a ++ b) = deltasAtIndex k a ++ deltasAtIndex k b := by
  simp [deltasAtIndex, List.filter_append]

theorem deltasAtIndex_nil_iff (k : Int) (l : List ToolCallDelta) :
    deltasAtIndex k l = [] ↔ k ∉ l.map (fun tc => tc.index) := by
  simp only [deltasAtIndex, List.filter_eq_nil_iff, List.mem_map,
    decide_eq_true_eq]
  constructor
  · rintro h ⟨tc, hmem, rfl⟩
    exact h tc hmem rfl
  · intro h tc hmem htc
    exact h ⟨tc, hmem, htc⟩

end AzureAiSdk

namespace AzureAiSdk

theorem truthy_getD_ne (o : Option String) (h : truthy o = true) :
    o.getD "" ≠ "" := by
  cases o with
  | some v =>
    simp only [truthy, ne_eq, decide_not] at h
    simpa using h
  | none => simp [truthy] at h

theorem truthy_getD_eq (o : Option String) (h : truthy o = false) :
    o.getD "" = "" := by
  cases o with
  | some v =>
    simp only [truthy, ne_eq, decide_not] at h
    simpa using h
  | none => rfl

theorem accIds_append (s : StreamState) (e : Int × ToolAcc) :
    accIds { s with
      toolCallAccumulators := s.toolCallAccumulators ++ [e] }
      = accIds s ++ [e.2.id] := by
  simp [accIds]

theorem deltasAtIndex_singleton (k : Int) (tc : ToolCallDelta) :
    deltasAtIndex k [tc] = if tc.index = k then [tc] else [] := by
  simp only [deltasAtIndex, List.filter]
  split <;> rename_i hs
  · rw [if_pos (by simpa using hs)]
  · rw [if_neg (by simpa using hs)]

end AzureAiSdk

namespace AzureAiSdk

theorem MInv_create (gen : Nat → String) (s : StreamState)
    (evs : List StreamEvent) (l : List ToolCallDelta) (tc : ToolCallDelta)
    (cid : String) (gcount : Nat)
    (h : MInv gen s evs l)
    (hl : mapLookup s.toolCallAccumulators tc.index = none)
    (hcid₁ : ∀ w, tc.id = some w → cid = w)
    (hcid₂ : tc.id = none → ∃ m, cid = gen m) :
    MInv gen
      { s with
        toolCallAccumulators := s.toolCallAccumulators
          ++ [(tc.index, { id := cid, name := tc.name.getD "",
                           argumentsText := tc.arguments.getD "" })]
        genCount := gcount }
      (evs ++ (StreamEvent.toolInputStart cid (tc.name.getD "")
        :: (if truthy tc.arguments then
              [StreamEvent.toolInputDelta cid (tc.arguments.getD "")] else [])))
      (l ++ [tc]) := by
  obtain ⟨hA, hB, hK, hD, hE, hF, hG, hJ, hH, hI⟩ := h
  set nm := tc.name.getD "" with hnm
  set a0 := tc.arguments.getD "" with ha0
  set accNew : ToolAcc := { id := cid, name := nm, argumentsText := a0 }
    with haccNew
  set newEvs : List StreamEvent :=
    StreamEvent.toolInputStart cid nm
      :: (if truthy tc.arguments then [StreamEvent.toolInputDelta cid a0] else [])
    with hnewEvs
  set s' : StreamState :=
    { s with
      toolCallAccumulators := s.toolCallAccumulators ++ [(tc.index, accNew)]
      genCount := gcount } with hs'
  have hids : accIds s' = accIds s ++ [cid] := by
    simp [hs', accIds, haccNew]
  have hopen' : s'.openTextIds = s.openTextIds := rfl
  have hidxnew : deltasAtIndex tc.index l = [] := (hH tc.index).1.mpr hl
  have hidxnotmem : tc.index ∉ l.map (fun t => t.index) :=
    (deltasAtIndex_nil_iff _ _).1 hidxnew
  have hevsForNew : ∀ i : String, ¬cid = i → evsFor i newEvs = [] := by
    intro i hne
    by_cases htr : truthy tc.arguments <;>
      simp [hnewEvs, htr, evsFor, eventId, hne]
  have hevsForNewSelf : evsFor cid newEvs = newEvs := by
    by_cases htr : truthy tc.arguments <;>
      simp [hnewEvs, htr, evsFor, eventId]
  have hdeltaNew : ∀ i : String, ¬cid = i → deltaConcat i newEvs = "" := by
    intro i hne
    by_cases htr : truthy tc.arguments <;>
      simp [hnewEvs, htr, deltaConcat, hne]
  have hdeltaNewSelf : deltaConcat cid newEvs = a0 := by
    by_cases htr : truthy tc.arguments
    · simp [hnewEvs, htr, deltaConcat]
    · simp [hnewEvs, htr, deltaConcat, truthy_getD_eq tc.arguments (by simpa using htr), ha0]
  refine ⟨?_, ?_, ?_, ?_, ?_, ?_, ?_, ?_, ?_, ?_⟩
  · exact hA
  · intro e he
    rcases List.mem_append.1 he with hmem | hmem
    · exact hB e hmem
    · by_cases htr : truthy tc.arguments <;> simp [hnewEvs, htr] at hmem
      · rcases hmem with rfl | rfl <;> rfl
      · subst hmem; rfl
  · intro i d hd
    rcases List.mem_append.1 hd with hmem | hmem
    · obtain ⟨hin, hdne⟩ := hK i d hmem
      rw [hids]
      exact ⟨List.mem_append_left _ hin, hdne⟩
    · by_cases htr : truthy tc.arguments <;> simp [hnewEvs, htr] at hmem
      obtain ⟨rfl, rfl⟩ := hmem
      rw [hids]
      exact ⟨List.mem_append_right _ (by simp), truthy_getD_ne tc.arguments htr⟩
  · intro i hi hio
    rw [hids] at hi
    simp only [List.mem_append, List.mem_singleton, not_or] at hi
    rw [hopen'] at hio
    rw [evsFor_append, hD i hi.1 hio, hevsForNew i (fun hh => hi.2 hh.symm)]
    rfl
  · intro htext hio
    rw [hids] at htext
    simp only [List.mem_append, List.mem_singleton, not_or] at htext
    rw [hopen'] at hio
    obtain ⟨ds, hds⟩ := hE htext.1 hio
    refine ⟨ds, ?_⟩
    rw [evsFor_append, hds, hevsForNew _ (fun hh => htext.2 hh.symm)]
    simp
  · intro hnd htext p hp
    rw [hids] at hnd htext
    obtain ⟨hnd₁, _, hdisj⟩ := List.nodup_append.1 hnd
    have hcidnot : cid ∉ accIds s := fun hmem => hdisj hmem (by simp)
    simp only [List.mem_append, List.mem_singleton, not_or] at htext
    rcases List.mem_append.1 hp with hmem | hmem
    · obtain ⟨ds, hall, hshape, hjoin⟩ := hF hnd₁ htext.1 p hmem
      have hpid : p.2.id ∈ accIds s := List.mem_map.2 ⟨p, hmem, rfl⟩
      have hne : ¬cid = p.2.id := fun hh => hcidnot (hh ▸ hpid)
      refine ⟨ds, hall, ?_, hjoin⟩
      rw [evsFor_append, hshape, hevsForNew _ hne]
      simp
    · simp only [List.mem_singleton] at hmem
      subst hmem
      have hcidopen : cid ∉ s.openTextIds := by
        rcases hA with hA₀ | hA₀ <;> rw [hA₀]
        · simp
        · simp only [List.mem_singleton]
          exact fun hh => htext.2 hh.symm
      have hbase : evsFor cid evs = [] := hD cid hcidnot hcidopen
      by_cases htr : truthy tc.arguments
      · refine ⟨[a0], ?_, ?_, ?_⟩
        · intro d hd
          simp only [List.mem_singleton] at hd
          subst hd
          exact truthy_getD_ne tc.arguments htr
        · rw [evsFor_append, hbase, hevsForNewSelf]
          simp [hnewEvs, htr]
        · simp [strConcat, haccNew]
      · refine ⟨[], by simp, ?_, ?_⟩
        · rw [evsFor_append, hbase, hevsForNewSelf]
          simp [hnewEvs, htr]
        · simp [strConcat, haccNew, ha0, truthy_getD_eq tc.arguments (by simpa using htr)]
  · intro hnd p hp
    rw [hids] at hnd
    obtain ⟨hnd₁, _, hdisj⟩ := List.nodup_append.1 hnd
    have hcidnot : cid ∉ accIds s := fun hmem => hdisj hmem (by simp)
    rcases List.mem_append.1 hp with hmem | hmem
    · have hpid : p.2.id ∈ accIds s := List.mem_map.2 ⟨p, hmem, rfl⟩
      have hne : ¬cid = p.2.id := fun hh => hcidnot (hh ▸ hpid)
      rw [deltaConcat_append, hG hnd₁ p hmem, hdeltaNew _ hne]
      simp
    · simp only [List.mem_singleton] at hmem
      subst hmem
      have hbase : deltaConcat cid evs = "" := by
        apply deltaConcat_eq_empty
        intro d hd
        exact hcidnot (hK cid d hd).1
      rw [deltaConcat_append, hbase, hdeltaNewSelf]
      simp [haccNew]
  · intro p hp
    rcases List.mem_append.1 hp with hmem | hmem
    · exact List.mem_append_left _ (hJ p hmem)
    · simp only [List.mem_singleton] at hmem
      subst hmem
      exact List.mem_append_right _ (by simp [hnewEvs, haccNew])
  · intro k
    have hsplitk : deltasAtIndex k (l ++ [tc])
        = deltasAtIndex k l ++ (if tc.index = k then [tc] else []) := by
      rw [deltasAtIndex_append, deltasAtIndex_singleton]
    have hlook : mapLookup (s.toolCallAccumulators ++ [(tc.index, accNew)]) k
        = (mapLookup s.toolCallAccumulators k
            <|> (if tc.index = k then some accNew else none)) := by
      rw [mapLookup_append]
      have : mapLookup [(tc.index, accNew)] k
          = (if tc.index = k then some accNew else none) := by
        simp only [mapLookup]
      rw [this]
    by_cases hk : tc.index = k
    · subst hk
      constructor
      · rw [hsplitk, hidxnew, hlook, hl]
        simp
      · intro tc₀ t heq
        rw [hsplitk, hidxnew] at heq
        simp only [List.nil_append, if_pos rfl, List.cons.injEq] at heq
        obtain ⟨rfl, rfl⟩ := heq
        refine ⟨accNew, ?_, hcid₁, ?_, rfl, ?_⟩
        · rw [hlook, hl]
          simp
        · intro hnone
          obtain ⟨m, hm⟩ := hcid₂ hnone
          exact ⟨m, hm⟩
        · rw [hsplitk, hidxnew]
          simp [strConcat, haccNew, ha0]
    · have hsame : deltasAtIndex k (l ++ [tc]) = deltasAtIndex k l := by
        rw [hsplitk, if_neg hk]
        simp
      have hlk : mapLookup (s.toolCallAccumulators ++ [(tc.index, accNew)]) k
          = mapLookup s.toolCallAccumulators k := by
        rw [hlook, if_neg hk]
        cases mapLookup s.toolCallAccumulators k <;> rfl
      rw [hsame]
      constructor
      · rw [show s'.toolCallAccumulators
            = s.toolCallAccumulators ++ [(tc.index, accNew)] from rfl, hlk]
        exact (hH k).1
      · intro tc₀ t heq
        obtain ⟨acc, hacc, hid, hgenid, hname, hargs⟩ := (hH k).2 tc₀ t heq
        refine ⟨acc, ?_, hid, hgenid, hname, hargs⟩
        rw [show s'.toolCallAccumulators
            = s.toolCallAccumulators ++ [(tc.index, accNew)] from rfl, hlk]
        exact hacc
  · have hkeys : s'.toolCallAccumulators.map Prod.fst
        = s.toolCallAccumulators.map Prod.fst ++ [tc.index] := by
      simp [hs']
    rw [hkeys, hI]
    have hmaps : List.map (fun t : ToolCallDelta => t.index) (l ++ [tc])
        = List.map (fun t : ToolCallDelta => t.index) l ++ [tc.index] := by
      simp
    rw [hmaps, firstOcc_append_not_mem _ _ hidxnotmem]

end AzureAiSdk

namespace AzureAiSdk

theorem mapUpdate_ids (m : List (Int × ToolAcc)) (k : Int)
    (f : ToolAcc → ToolAcc) (hid : ∀ a, (f a).id = a.id) :
    (mapUpdate m k f).map (fun p => p.2.id) = m.map (fun p => p.2.id) := by
  induction m with
  | nil => rfl
  | cons p rest ih =>
    have hstep : mapUpdate (p :: rest) k f
        = (if p.1 = k then (p.1, f p.2) else p) :: mapUpdate rest k f := rfl
    rw [hstep]
    by_cases hpk : p.1 = k
    · simp only [if_pos hpk, List.map_cons, ih, hid]
    · simp only [if_neg hpk, List.map_cons, ih]

theorem MInv_update (gen : Nat → String) (s : StreamState)
    (evs : List StreamEvent) (l : List ToolCallDelta) (tc : ToolCallDelta)
    (acc : ToolAcc)
    (h : MInv gen s evs l)
    (hl : mapLookup s.toolCallAccumulators tc.index = some acc) :
    MInv gen
      { s with
        toolCallAccumulators := mapUpdate s.toolCallAccumulators tc.index
          (fun a => { a with
            argumentsText := a.argumentsText ++ tc.arguments.getD "" }) }
      (evs ++ (if tc.arguments.getD "" ≠ "" then
          [StreamEvent.toolInputDelta acc.id (tc.arguments.getD "")] else []))
      (l ++ [tc]) := by
  obtain ⟨hA, hB, hK, hD, hE, hF, hG, hJ, hH, hI⟩ := h
  set a0 := tc.arguments.getD "" with ha0
  set f : ToolAcc → ToolAcc :=
    (fun a => { a with argumentsText := a.argumentsText ++ a0 }) with hf
  set newEvs : List StreamEvent :=
    (if a0 ≠ "" then [StreamEvent.toolInputDelta acc.id a0] else [])
    with hnewEvs
  set s' : StreamState :=
    { s with
      toolCallAccumulators := mapUpdate s.toolCallAccumulators tc.index f }
    with hs'
  have hfid : ∀ a, (f a).id = a.id := fun a => rfl
  have hids : accIds s' = accIds s := by
    simp only [hs', accIds]
    exact mapUpdate_ids _ _ _ hfid
  have hopen' : s'.openTextIds = s.openTextIds := rfl
  have hkeysnd : (s.toolCallAccumulators.map Prod.fst).Nodup := by
    rw [hI]
    exact firstOcc_nodup _
  have hmemacc : (tc.index, acc) ∈ s.toolCallAccumulators :=
    mapLookup_some_mem _ _ _ hl
  have haccid : acc.id ∈ accIds s :=
    List.mem_map.2 ⟨(tc.index, acc), hmemacc, rfl⟩
  have hevsNew_ne : ∀ i : String, ¬acc.id = i → evsFor i newEvs = [] := by
    intro i hne
    by_cases hd0 : a0 = "" <;>
      simp [hnewEvs, hd0, evsFor, eventId, hne]
  have hevsNew_self : evsFor acc.id newEvs = newEvs := by
    by_cases hd0 : a0 = "" <;>
      simp [hnewEvs, hd0, evsFor, eventId]
  have hdeltaNew_ne : ∀ i : String, ¬acc.id = i → deltaConcat i newEvs = "" := by
    intro i hne
    by_cases hd0 : a0 = "" <;>
      simp [hnewEvs, hd0, deltaConcat, hne]
  have hdeltaNew_self : deltaConcat acc.id newEvs = a0 := by
    by_cases hd0 : a0 = "" <;>
      simp [hnewEvs, hd0, deltaConcat]
  have holdne : deltasAtIndex tc.index l ≠ [] := by
    intro hnil
    rw [(hH tc.index).1.1 hnil] at hl
    cases hl
  have hidxmem : tc.index ∈ l.map (fun t => t.index) := by
    by_contra hno
    exact holdne ((deltasAtIndex_nil_iff _ _).2 hno)
  -- the unique entry at key `tc.index` is `(tc.index, acc)`
  have huniq : ∀ q ∈ s.toolCallAccumulators, q.1 = tc.index →
      q = (tc.index, acc) := by
    intro q hq hq1
    have := mapLookup_of_mem_nodup _ q hq hkeysnd
    rw [hq1, hl] at this
    cases this
    rw [← hq1]
  refine ⟨?_, ?_, ?_, ?_, ?_, ?_, ?_, ?_, ?_, ?_⟩
  · exact hA
  · intro e he
    rcases List.mem_append.1 he with hmem | hmem
    · exact hB e hmem
    · by_cases hd0 : a0 = "" <;> simp [hnewEvs, hd0] at hmem
      subst hmem; rfl
  · intro i d hd
    rcases List.mem_append.1 hd with hmem | hmem
    · obtain ⟨hin, hdne⟩ := hK i d hmem
      rw [hids]
      exact ⟨hin, hdne⟩
    · by_cases hd0 : a0 = "" <;> simp [hnewEvs, hd0] at hmem
      obtain ⟨rfl, rfl⟩ := hmem
      rw [hids]
      exact ⟨haccid, hd0⟩
  · intro i hi hio
    rw [hids] at hi
    rw [hopen'] at hio
    have hne : ¬acc.id = i := fun hh => hi (hh ▸ haccid)
    rw [evsFor_append, hD i hi hio, hevsNew_ne i hne]
    rfl
  · intro htext hio
    rw [hids] at htext
    rw [hopen'] at hio
    obtain ⟨ds, hds⟩ := hE htext hio
    have hne : ¬acc.id = "text-0" := fun hh => htext (hh ▸ haccid)
    refine ⟨ds, ?_⟩
    rw [evsFor_append, hds, hevsNew_ne _ hne]
    simp
  · intro hnd htext p' hp'
    rw [hids] at hnd htext
    obtain ⟨q, hq, hgq⟩ := List.mem_map.1 hp'
    by_cases hq1 : q.1 = tc.index
    · have hqacc : q = (tc.index, acc) := huniq q hq hq1
      subst hqacc
      rw [if_pos rfl] at hgq
      subst hgq
      obtain ⟨ds, hall, hshape, hjoin⟩ := hF hnd htext (tc.index, acc) hq
      by_cases hd0 : a0 = ""
      · refine ⟨ds, hall, ?_, ?_⟩
        · rw [evsFor_append, hshape]
          have hthis : newEvs = [] := by simp [hnewEvs, hd0]
          rw [hthis]
          simp [hf, evsFor]
        · simp [hf, hjoin, hd0]
      · refine ⟨ds ++ [a0], ?_, ?_, ?_⟩
        · intro d hd
          rcases List.mem_append.1 hd with hdm | hdm
          · exact hall d hdm
          · simp only [List.mem_singleton] at hdm
            subst hdm
            exact hd0
        · rw [evsFor_append, hshape]
          have hthis : newEvs = [StreamEvent.toolInputDelta acc.id a0] := by
            simp [hnewEvs, hd0]
          rw [hthis]
          simp [hf, List.map_append, evsFor, eventId]
        · rw [strConcat_append, strConcat_singleton, hjoin]
    · rw [if_neg hq1] at hgq
      subst hgq
      have hqid : q.2.id ∈ accIds s := List.mem_map.2 ⟨q, hq, rfl⟩
      have hne : ¬acc.id = q.2.id := by
        intro hh
        have := List.inj_on_of_nodup_map
          (show (s.toolCallAccumulators.map (fun p => p.2.id)).Nodup from hnd)
          hmemacc hq hh
        exact hq1 (by rw [← this])
      obtain ⟨ds, hall, hshape, hjoin⟩ := hF hnd htext q hq
      refine ⟨ds, hall, ?_, hjoin⟩
      rw [evsFor_append, hshape, hevsNew_ne _ hne]
      simp
  · intro hnd p' hp'
    rw [hids] at hnd
    obtain ⟨q, hq, hgq⟩ := List.mem_map.1 hp'
    by_cases hq1 : q.1 = tc.index
    · have hqacc : q = (tc.index, acc) := huniq q hq hq1
      subst hqacc
      rw [if_pos rfl] at hgq
      subst hgq
      rw [deltaConcat_append, hG hnd (tc.index, acc) hq, hdeltaNew_self]
    · rw [if_neg hq1] at hgq
      subst hgq
      have hne : ¬acc.id = q.2.id := by
        intro hh
        have := List.inj_on_of_nodup_map
          (show (s.toolCallAccumulators.map (fun p => p.2.id)).Nodup from hnd)
          hmemacc hq hh
        exact hq1 (by rw [← this])
      rw [deltaConcat_append, hG hnd q hq, hdeltaNew_ne _ hne]
      simp
  · intro p' hp'
    obtain ⟨q, hq, hgq⟩ := List.mem_map.1 hp'
    by_cases hq1 : q.1 = tc.index
    · have hqacc : q = (tc.index, acc) := huniq q hq hq1
      subst hqacc
      rw [if_pos rfl] at hgq
      subst hgq
      exact List.mem_append_left _ (hJ (tc.index, acc) hq)
    · rw [if_neg hq1] at hgq
      subst hgq
      exact List.mem_append_left _ (hJ q hq)
  · intro k
    have hsplitk : deltasAtIndex k (l ++ [tc])
        = deltasAtIndex k l ++ (if tc.index = k then [tc] else []) := by
      rw [deltasAtIndex_append, deltasAtIndex_singleton]
    by_cases hk : tc.index = k
    · subst hk
      constructor
      · constructor
        · intro hnil
          rw [hsplitk, if_pos rfl] at hnil
          exact absurd hnil (by simp)
        · intro hnone
          rw [show s'.toolCallAccumulators
              = mapUpdate s.toolCallAccumulators tc.index f from rfl,
            mapLookup_mapUpdate_self, hl] at hnone
          cases hnone
      · intro tc₀ t heq
        cases holdd : deltasAtIndex tc.index l with
        | nil => exact absurd holdd holdne
        | cons tc₁ t₁ =>
          obtain ⟨acc₀, hacc₀, hid₀, hgen₀, hname₀, hargs₀⟩ :=
            (hH tc.index).2 tc₁ t₁ holdd
          rw [hl] at hacc₀
          injection hacc₀ with haeq
          rw [← haeq] at hid₀ hgen₀ hname₀ hargs₀
          rw [hsplitk, if_pos rfl, holdd] at heq
          injection heq with h₁ h₂
          subst h₁
          subst h₂
          refine ⟨f acc, ?_, ?_, ?_, ?_, ?_⟩
          · rw [show s'.toolCallAccumulators
                = mapUpdate s.toolCallAccumulators tc.index f from rfl,
              mapLookup_mapUpdate_self, hl]
            rfl
          · intro w hw
            rw [hfid]
            exact hid₀ w hw
          · intro hnone
            obtain ⟨m, hm⟩ := hgen₀ hnone
            exact ⟨m, by rw [hfid]; exact hm⟩
          · rw [show (f acc).name = acc.name from rfl]
            exact hname₀
          · rw [show (f acc).argumentsText = acc.argumentsText ++ a0 from rfl]
            rw [hargs₀, hsplitk, if_pos rfl, List.map_append, strConcat_append]
            simp [ha0, strConcat]
    · have hsame : deltasAtIndex k (l ++ [tc]) = deltasAtIndex k l := by
        rw [hsplitk, if_neg hk]
        simp
      have hlk : mapLookup s'.toolCallAccumulators k
          = mapLookup s.toolCallAccumulators k := by
        rw [show s'.toolCallAccumulators
            = mapUpdate s.toolCallAccumulators tc.index f from rfl]
        exact mapLookup_mapUpdate_ne _ _ _ _ (fun hh => hk hh.symm)
      rw [hsame, hlk]
      exact hH k
  · have hkeys : s'.toolCallAccumulators.map Prod.fst
        = s.toolCallAccumulators.map Prod.fst := by
      rw [show s'.toolCallAccumulators
          = mapUpdate s.toolCallAccumulators tc.index f from rfl]
      exact mapUpdate_keys _ _ _
    rw [hkeys, hI]
    have hmaps : List.map (fun t : ToolCallDelta => t.index) (l ++ [tc])
        = List.map (fun t : ToolCallDelta => t.index) l ++ [tc.index] := by
      simp
    rw [hmaps, firstOcc_append_mem _ _ hidxmem]

end AzureAiSdk

namespace AzureAiSdk

theorem MInv_init (gen : Nat → String) : MInv gen initState [] [] := by
  refine ⟨Or.inl rfl, ?_, ?_, ?_, ?_, ?_, ?_, ?_, ?_, rfl⟩
  · intro e he
    simp at he
  · intro i d hd
    simp at hd
  · intro i _ _
    rfl
  · intro _ hmem
    simp [initState] at hmem
  · intro _ _ p hp
    simp [initState] at hp
  · intro _ p hp
    simp [initState] at hp
  · intro p hp
    simp [initState] at hp
  · intro k
    constructor
    · simp [deltasAtIndex, initState, mapLookup]
    · intro tc₀ t heq
      simp [deltasAtIndex] at heq

theorem MInv_errorEvent (gen : Nat → String) (s : StreamState)
    (evs : List StreamEvent) (l : List ToolCallDelta)
    (h : MInv gen s evs l) :
    MInv gen s (evs ++ [StreamEvent.errorEvent]) l := by
  obtain ⟨hA, hB, hK, hD, hE, hF, hG, hJ, hH, hI⟩ := h
  have hevs : ∀ i : String, evsFor i [StreamEvent.errorEvent] = [] := by
    intro i
    simp [evsFor, eventId]
  have hdc : ∀ i : String, deltaConcat i [StreamEvent.errorEvent] = "" := by
    intro i
    simp [deltaConcat]
  refine ⟨hA, ?_, ?_, ?_, ?_, ?_, ?_, ?_, hH, hI⟩
  · intro e he
    rcases List.mem_append.1 he with hmem | hmem
    · exact hB e hmem
    · simp only [List.mem_singleton] at hmem
      subst hmem
      rfl
  · intro i d hd
    rcases List.mem_append.1 hd with hmem | hmem
    · exact hK i d hmem
    · simp at hmem
  · intro i hi hio
    rw [evsFor_append, hD i hi hio, hevs]
    rfl
  · intro htext hio
    obtain ⟨ds, hds⟩ := hE htext hio
    refine ⟨ds, ?_⟩
    rw [evsFor_append, hds, hevs]
    simp
  · intro hnd htext p hp
    obtain ⟨ds, hall, hshape, hjoin⟩ := hF hnd htext p hp
    refine ⟨ds, hall, ?_, hjoin⟩
    rw [evsFor_append, hshape, hevs]
    simp
  · intro hnd p hp
    rw [deltaConcat_append, hG hnd p hp, hdc]
    simp
  · intro p hp
    exact List.mem_append_left _ (hJ p hp)

theorem MInv_textDelta_open (gen : Nat → String) (s : StreamState)
    (evs : List StreamEvent) (l : List ToolCallDelta) (t : String)
    (h : MInv gen s evs l)
    (hcont : s.openTextIds.contains "text-0" = true) :
    MInv gen s (evs ++ [StreamEvent.textDelta "text-0" t]) l := by
  obtain ⟨hA, hB, hK, hD, hE, hF, hG, hJ, hH, hI⟩ := h
  have hmem0 : "text-0" ∈ s.openTextIds := by
    rcases hA with hA₀ | hA₀ <;> rw [hA₀] at hcont ⊢
    · simp at hcont
    · simp
  have hevs : ∀ i : String, ¬i = "text-0" →
      evsFor i [StreamEvent.textDelta "text-0" t] = [] := by
    intro i hne
    have hne' : ¬"text-0" = i := fun hh => hne hh.symm
    simp [evsFor, eventId, hne']
  have hdc : ∀ i : String, deltaConcat i [StreamEvent.textDelta "text-0" t] = "" := by
    intro i
    simp [deltaConcat]
  refine ⟨hA, ?_, ?_, ?_, ?_, ?_, ?_, ?_, hH, hI⟩
  · intro e he
    rcases List.mem_append.1 he with hmem | hmem
    · exact hB e hmem
    · simp only [List.mem_singleton] at hmem
      subst hmem
      rfl
  · intro i d hd
    rcases List.mem_append.1 hd with hmem | hmem
    · exact hK i d hmem
    · simp at hmem
  · intro i hi hio
    have hne : ¬i = "text-0" := fun hh => hio (hh ▸ hmem0)
    rw [evsFor_append, hD i hi hio, hevs i hne]
    rfl
  · intro htext hio
    obtain ⟨ds, hds⟩ := hE htext hmem0
    refine ⟨ds ++ [t], ?_⟩
    rw [evsFor_append, hds]
    simp [evsFor, eventId, List.map_append]
  · intro hnd htext p hp
    obtain ⟨ds, hall, hshape, hjoin⟩ := hF hnd htext p hp
    have hpid : p.2.id ∈ accIds s := List.mem_map.2 ⟨p, hp, rfl⟩
    have hne : ¬p.2.id = "text-0" := fun hh => htext (hh ▸ hpid)
    refine ⟨ds, hall, ?_, hjoin⟩
    rw [evsFor_append, hshape, hevs _ hne]
    simp
  · intro hnd p hp
    rw [deltaConcat_append, hG hnd p hp, hdc]
    simp
  · intro p hp
    exact List.mem_append_left _ (hJ p hp)

theorem MInv_textDelta_new (gen : Nat → String) (s : StreamState)
    (evs : List StreamEvent) (l : List ToolCallDelta) (t : String)
    (h : MInv gen s evs l)
    (hcont : s.openTextIds.contains "text-0" = false) :
    MInv gen { s with openTextIds := s.openTextIds ++ ["text-0"] }
      (evs ++ [StreamEvent.textStart "text-0", StreamEvent.textDelta "text-0" t])
      l := by
  obtain ⟨hA, hB, hK, hD, hE, hF, hG, hJ, hH, hI⟩ := h
  have hopen0 : s.openTextIds = [] := by
    rcases hA with hA₀ | hA₀
    · exact hA₀
    · rw [hA₀] at hcont
      simp at hcont
  have hevs : ∀ i : String, ¬i = "text-0" →
      evsFor i [StreamEvent.textStart "text-0", StreamEvent.textDelta "text-0" t]
        = [] := by
    intro i hne
    have hne' : ¬"text-0" = i := fun hh => hne hh.symm
    simp [evsFor, eventId, hne']
  have hdc : ∀ i : String,
      deltaConcat i [StreamEvent.textStart "text-0", StreamEvent.textDelta "text-0" t]
        = "" := by
    intro i
    simp [deltaConcat]
  refine ⟨?_, ?_, ?_, ?_, ?_, ?_, ?_, ?_, hH, hI⟩
  · right
    rw [hopen0]
    rfl
  · intro e he
    rcases List.mem_append.1 he with hmem | hmem
    · exact hB e hmem
    · simp only [List.mem_cons, List.not_mem_nil, or_false] at hmem
      rcases hmem with rfl | rfl <;> rfl
  · intro i d hd
    rcases List.mem_append.1 hd with hmem | hmem
    · exact hK i d hmem
    · simp at hmem
  · intro i hi hio
    simp only [List.mem_append, List.mem_singleton, not_or] at hio
    have hne : ¬i = "text-0" := hio.2
    rw [evsFor_append, hD i hi hio.1, hevs i hne]
    rfl
  · intro htext hio
    have hbase : evsFor "text-0" evs = [] := by
      apply hD
      · exact htext
      · rw [hopen0]
        simp
    refine ⟨[t], ?_⟩
    rw [evsFor_append, hbase]
    simp [evsFor, eventId]
  · intro hnd htext p hp
    obtain ⟨ds, hall, hshape, hjoin⟩ := hF hnd htext p hp
    have hpid : p.2.id ∈ accIds s := List.mem_map.2 ⟨p, hp, rfl⟩
    have hne : ¬p.2.id = "text-0" := fun hh => htext (hh ▸ hpid)
    refine ⟨ds, hall, ?_, hjoin⟩
    rw [evsFor_append, hshape, hevs _ hne]
    simp
  · intro hnd p hp
    rw [deltaConcat_append, hG hnd p hp, hdc]
    simp
  · intro p hp
    exact List.mem_append_left _ (hJ p hp)

end AzureAiSdk

namespace AzureAiSdk

theorem MInv_processToolCallDelta (gen : Nat → String) (s : StreamState)
    (evs : List StreamEvent) (l : List ToolCallDelta) (tc : ToolCallDelta)
    (h : MInv gen s evs l) :
    MInv gen (processToolCallDelta gen s tc).1
      (evs ++ (processToolCallDelta gen s tc).2) (l ++ [tc]) := by
  cases hl : mapLookup s.toolCallAccumulators tc.index with
  | none =>
    cases hid : tc.id with
    | some w =>
      have hres := MInv_create gen s evs l tc w s.genCount h hl
        (fun w' hw' => by rw [hid] at hw'; exact Option.some.inj hw')
        (fun hn => by rw [hid] at hn; cases hn)
      simpa [processToolCallDelta, hl, hid] using hres
    | none =>
      have hres := MInv_create gen s evs l tc (gen s.genCount) (s.genCount + 1) h hl
        (fun w' hw' => by rw [hid] at hw'; cases hw')
        (fun _ => ⟨s.genCount, rfl⟩)
      simpa [processToolCallDelta, hl, hid] using hres
  | some acc =>
    have hres := MInv_update gen s evs l tc acc h hl
    simpa [processToolCallDelta, hl] using hres

theorem MInv_processToolCallDeltas (gen : Nat → String)
    (tcs : List ToolCallDelta) :
    ∀ (s : StreamState) (evs : List StreamEvent) (l : List ToolCallDelta),
      MInv gen s evs l →
      MInv gen (processToolCallDeltas gen s tcs).1
        (evs ++ (processToolCallDeltas gen s tcs).2) (l ++ tcs) := by
  induction tcs with
  | nil =>
    intro s evs l h
    simpa [processToolCallDeltas] using h
  | cons tc rest ih =>
    intro s evs l h
    have h₁ := MInv_processToolCallDelta gen s evs l tc h
    have h₂ := ih (processToolCallDelta gen s tc).1
      (evs ++ (processToolCallDelta gen s tc).2) (l ++ [tc]) h₁
    simpa [processToolCallDeltas, List.append_assoc] using h₂

theorem MInv_processChoice (gen : Nat → String) (s : StreamState)
    (evs : List StreamEvent) (l : List ToolCallDelta) (c : ChunkChoice)
    (h : MInv gen s evs l) :
    MInv gen (processChoice gen s c).1 (evs ++ (processChoice gen s c).2)
      (l ++ choiceToolDeltas c) := by
  -- stage 1: the text part
  have h₁ : MInv gen
      (match c.delta.content with
       | some t =>
         if t ≠ "" then
           if s.openTextIds.contains "text-0" then
             (s, [StreamEvent.textDelta "text-0" t])
           else
             ({ s with openTextIds := s.openTextIds ++ ["text-0"] },
              [StreamEvent.textStart "text-0", StreamEvent.textDelta "text-0" t])
         else (s, [])
       | none => (s, [])).1
      (evs ++ (match c.delta.content with
       | some t =>
         if t ≠ "" then
           if s.openTextIds.contains "text-0" then
             (s, [StreamEvent.textDelta "text-0" t])
           else
             ({ s with openTextIds := s.openTextIds ++ ["text-0"] },
              [StreamEvent.textStart "text-0", StreamEvent.textDelta "text-0" t])
         else (s, [])
       | none => (s, [])).2) l := by
    cases hc : c.delta.content with
    | some t =>
      by_cases htne : t = ""
      · simpa [htne] using h
      · cases hcont : s.openTextIds.contains "text-0" with
        | true => simpa [htne, hcont] using
            MInv_textDelta_open gen s evs l t h hcont
        | false => simpa [htne, hcont] using
            MInv_textDelta_new gen s evs l t h hcont
    | none => simpa using h
  -- stage 2: the tool-call deltas
  cases htc : c.delta.tool_calls with
  | some tcs =>
    have h₂ := MInv_processToolCallDeltas gen tcs _ _ l h₁
    cases hfr : c.finish_reason with
    | some r =>
      simpa [processChoice, htc, hfr, choiceToolDeltas, List.append_assoc]
        using h₂
    | none =>
      simpa [processChoice, htc, hfr, choiceToolDeltas, List.append_assoc]
        using h₂
  | none =>
    cases hfr : c.finish_reason with
    | some r =>
      simpa [processChoice, htc, hfr, choiceToolDeltas] using h₁
    | none =>
      simpa [processChoice, htc, hfr, choiceToolDeltas] using h₁

theorem MInv_processChoices (gen : Nat → String) (cs : List ChunkChoice) :
    ∀ (s : StreamState) (evs : List StreamEvent) (l : List ToolCallDelta),
      MInv gen s evs l →
      MInv gen (processChoices gen s cs).1
        (evs ++ (processChoices gen s cs).2)
        (l ++ cs.foldr (fun ch a => choiceToolDeltas ch ++ a) []) := by
  induction cs with
  | nil =>
    intro s evs l h
    simpa [processChoices] using h
  | cons c rest ih =>
    intro s evs l h
    have h₁ := MInv_processChoice gen s evs l c h
    have h₂ := ih (processChoice gen s c).1
      (evs ++ (processChoice gen s c).2) (l ++ choiceToolDeltas c) h₁
    simpa [processChoices, List.append_assoc] using h₂

theorem MInv_parseChunkFn (gen : Nat → String) (s : StreamState)
    (evs : List StreamEvent) (l : List ToolCallDelta) (pr : ChunkParseResult)
    (h : MInv gen s evs l) :
    MInv gen (parseChunkFn gen s pr).1 (evs ++ (parseChunkFn gen s pr).2)
      (l ++ chunkToolDeltas pr) := by
  match pr with
  | none =>
    simpa [parseChunkFn, chunkToolDeltas] using MInv_errorEvent gen s evs l h
  | some value =>
    have husage : MInv gen
        (match value.usage with
         | some u => { s with inputTokens := u.prompt_tokens,
                              outputTokens := u.completion_tokens }
         | none => s) evs l := by
      cases value.usage with
      | some u => exact h
      | none => exact h
    have h₂ := MInv_processChoices gen value.choices _ evs l husage
    simpa [parseChunkFn, chunkToolDeltas] using h₂

theorem MInv_runFrom (gen : Nat → String) (chunks : List ChunkParseResult) :
    ∀ (s : StreamState) (evs : List StreamEvent) (l : List ToolCallDelta),
      MInv gen s evs l →
      MInv gen (runFrom gen s chunks).1 (evs ++ (runFrom gen s chunks).2)
        (l ++ flatToolDeltas chunks) := by
  induction chunks with
  | nil =>
    intro s evs l h
    simpa [runFrom, flatToolDeltas] using h
  | cons pr rest ih =>
    intro s evs l h
    have h₁ := MInv_parseChunkFn gen s evs l pr h
    have h₂ := ih (parseChunkFn gen s pr).1
      (evs ++ (parseChunkFn gen s pr).2) (l ++ chunkToolDeltas pr) h₁
    simpa [runFrom, flatToolDeltas, List.append_assoc] using h₂

/-- The run invariant holds at the end of every streaming run. -/
theorem MInv_run (gen : Nat → String) (chunks : List ChunkParseResult) :
    MInv gen (runState gen chunks) (runFrom gen initState chunks).2
      (flatToolDeltas chunks) := by
  have h := MInv_runFrom gen chunks initState [] [] (MInv_init gen)
  simpa [runState] using h

end AzureAiSdk

namespace AzureAiSdk

-- ---------------------------------------------------------------------------
-- Helper lemmas: the flush phase.
-- ---------------------------------------------------------------------------

theorem toolCallInputs_append (a b : List StreamEvent) :
    toolCallInputs (a ++ b) = toolCallInputs a ++ toolCallInputs b := by
  simp [toolCallInputs, List.filterMap_append]

theorem toolCallInputs_of_no_terminal (evs : List StreamEvent)
    (h : ∀ e ∈ evs, isCloseOrTerminal e = false) : toolCallInputs evs = [] := by
  induction evs with
  | nil => rfl
  | cons e rest ih =>
    have hrest : ∀ e ∈ rest, isCloseOrTerminal e = false :=
      fun e' he' => h e' (List.mem_cons_of_mem _ he')
    have he := h e (List.mem_cons_self _ _)
    cases e <;> simp [toolCallInputs] at ih ⊢ <;>
      first
      | exact ih hrest
      | exact absurd he (by simp [isCloseOrTerminal])

theorem filter_isFinish_of_no_terminal (evs : List StreamEvent)
    (h : ∀ e ∈ evs, isCloseOrTerminal e = false) :
    evs.filter isFinish = [] := by
  rw [List.filter_eq_nil_iff]
  intro e he
  have := h e he
  cases e <;> simp [isFinish] <;> simp [isCloseOrTerminal] at this

theorem flushPairs_toolCallInputs (m : List (Int × ToolAcc)) :
    toolCallInputs (flushPairs m) = m.map (fun p => p.2.argumentsText) := by
  induction m with
  | nil => rfl
  | cons p rest ih => simp [flushPairs, toolCallInputs] at ih ⊢; exact ih

theorem flushPairs_no_finish (m : List (Int × ToolAcc)) :
    (flushPairs m).filter isFinish = [] := by
  induction m with
  | nil => rfl
  | cons p rest ih => simp [flushPairs, isFinish, ih]

theorem flushPairs_no_delta (m : List (Int × ToolAcc)) (i d : String) :
    StreamEvent.toolInputDelta i d ∉ flushPairs m := by
  induction m with
  | nil => simp [flushPairs]
  | cons p rest ih => simp [flushPairs, ih]

theorem evsFor_flushPairs_not_mem (m : List (Int × ToolAcc)) (i : String)
    (h : i ∉ m.map (fun q => q.2.id)) : evsFor i (flushPairs m) = [] := by
  induction m with
  | nil => rfl
  | cons p rest ih =>
    simp only [List.map_cons, List.mem_cons, not_or] at h
    have hne : ¬p.2.id = i := fun hh => h.1 hh.symm
    simp only [flushPairs]
    rw [show (StreamEvent.toolInputEnd p.2.id
        :: StreamEvent.toolCall p.2.id p.2.name p.2.argumentsText
        :: flushPairs rest)
      = [StreamEvent.toolInputEnd p.2.id,
         StreamEvent.toolCall p.2.id p.2.name p.2.argumentsText]
        ++ flushPairs rest from rfl]
    rw [evsFor_append, ih h.2]
    simp [evsFor, eventId, hne]

theorem evsFor_flushPairs_mem (m : List (Int × ToolAcc)) (p : Int × ToolAcc)
    (hmem : p ∈ m) (hnd : (m.map (fun q => q.2.id)).Nodup) :
    evsFor p.2.id (flushPairs m)
      = [StreamEvent.toolInputEnd p.2.id,
         StreamEvent.toolCall p.2.id p.2.name p.2.argumentsText] := by
  induction m with
  | nil => simp at hmem
  | cons q rest ih =>
    simp only [List.map_cons, List.nodup_cons] at hnd
    simp only [flushPairs]
    rw [show (StreamEvent.toolInputEnd q.2.id
        :: StreamEvent.toolCall q.2.id q.2.name q.2.argumentsText
        :: flushPairs rest)
      = [StreamEvent.toolInputEnd q.2.id,
         StreamEvent.toolCall q.2.id q.2.name q.2.argumentsText]
        ++ flushPairs rest from rfl]
    rw [evsFor_append]
    rcases List.mem_cons.1 hmem with rfl | hmemr
    · rw [evsFor_flushPairs_not_mem rest p.2.id hnd.1]
      simp [evsFor, eventId]
    · have hqid : ¬q.2.id = p.2.id := by
        intro hh
        exact hnd.1 (hh ▸ List.mem_map.2 ⟨p, hmemr, rfl⟩)
      rw [ih hmemr hnd.2]
      simp [evsFor, eventId, hqid]

theorem mem_flushPairs_end (m : List (Int × ToolAcc)) (p : Int × ToolAcc)
    (h : p ∈ m) : StreamEvent.toolInputEnd p.2.id ∈ flushPairs m := by
  induction m with
  | nil => simp at h
  | cons q rest ih =>
    rcases List.mem_cons.1 h with rfl | hmem
    · simp [flushPairs]
    · simp only [flushPairs, List.mem_cons]
      exact Or.inr (Or.inr (ih hmem))

theorem mem_flushPairs_call (m : List (Int × ToolAcc)) (p : Int × ToolAcc)
    (h : p ∈ m) :
    StreamEvent.toolCall p.2.id p.2.name p.2.argumentsText ∈ flushPairs m := by
  induction m with
  | nil => simp at h
  | cons q rest ih =>
    rcases List.mem_cons.1 h with rfl | hmem
    · simp [flushPairs]
    · simp only [flushPairs, List.mem_cons]
      exact Or.inr (Or.inr (ih hmem))

theorem mem_flushPairs_shape (m : List (Int × ToolAcc)) (e : StreamEvent)
    (h : e ∈ flushPairs m) :
    ∃ p ∈ m, e = StreamEvent.toolInputEnd p.2.id
      ∨ e = StreamEvent.toolCall p.2.id p.2.name p.2.argumentsText := by
  induction m with
  | nil => simp [flushPairs] at h
  | cons q rest ih =>
    simp only [flushPairs, List.mem_cons] at h
    rcases h with rfl | rfl | hmem
    · exact ⟨q, List.mem_cons_self _ _, Or.inl rfl⟩
    · exact ⟨q, List.mem_cons_self _ _, Or.inr rfl⟩
    · obtain ⟨p, hp, hsh⟩ := ih hmem
      exact ⟨p, List.mem_cons_of_mem _ hp, hsh⟩

theorem flushFn_no_delta (s : StreamState) (i d : String) :
    StreamEvent.toolInputDelta i d ∉ flushFn s := by
  intro hmem
  simp only [flushFn, List.mem_append] at hmem
  rcases hmem with (hmem | hmem) | hmem
  · obtain ⟨x, _, hx⟩ := List.mem_map.1 hmem
    cases hx
  · exact flushPairs_no_delta _ _ _ hmem
  · simp at hmem

theorem deltaConcat_flushFn (s : StreamState) (i : String) :
    deltaConcat i (flushFn s) = "" := by
  apply deltaConcat_eq_empty
  intro d
  exact flushFn_no_delta s i d

end AzureAiSdk

namespace AzureAiSdk

-- ---------------------------------------------------------------------------
-- Theorems: C1
-- ---------------------------------------------------------------------------

/-- C1 (amended): provided the ids allocated to distinct wire indices over
the run are pairwise distinct, concatenating the payloads of all
tool-input-delta events emitted for an id, in emission order, yields exactly
the argument string carried by that id's terminal tool-call event at flush —
for single-fragment and split deliveries alike. (Without the distinctness
proviso the claim fails: see the counterexample, where two indices share a
wire-supplied id.) -/
theorem toolDelta_concat_matches_toolCall (gen : Nat → String)
    (chunks : List ChunkParseResult)
    (hnd : (allocatedIds gen chunks).Nodup) :
    ∀ i n inp, StreamEvent.toolCall i n inp ∈ runStream gen chunks →
      deltaConcat i (runStream gen chunks) = inp := by
  intro i n inp hmem
  obtain ⟨hA, hB, hK, hD, hE, hF, hG, hJ, hH, hI⟩ := MInv_run gen chunks
  have hnd' : (accIds (runState gen chunks)).Nodup := hnd
  rw [runStream] at hmem
  rcases List.mem_append.1 hmem with hm | hm
  · have := hB _ hm
    simp [isCloseOrTerminal] at this
  · simp only [flushFn, List.mem_append] at hm
    rcases hm with (hm | hm) | hm
    · obtain ⟨x, _, hx⟩ := List.mem_map.1 hm
      cases hx
    · obtain ⟨p, hp, hsh⟩ := mem_flushPairs_shape _ _ hm
      rcases hsh with hsh | hsh
      · cases hsh
      · injection hsh with h₁ h₂ h₃
        subst h₁
        subst h₃
        rw [runStream, deltaConcat_append, deltaConcat_flushFn,
          hG hnd' p hp]
        simp
    · simp at hm
/-- Counterexample for C1 as stated: in the run `exRunDup` two distinct
wire indices carry the same wire id `"a"`; a terminal tool-call event for
id `"a"` carries `"x"`, yet the concatenation of the tool-input-deltas for
`"a"` is `"xy"`. -/
theorem toolDelta_concat_counterexample :
    StreamEvent.toolCall "a" "" "x" ∈ runStream exGen exRunDup
    ∧ deltaConcat "a" (runStream exGen exRunDup) = "xy"
    ∧ ("xy" : String) ≠ "x" := by
  refine ⟨?_, ?_, ?_⟩ <;> decide

/-- Witness for C1: the split two-tool-call run `exRunA` has distinct
allocated ids, and the deltas of id `"a"` concatenate to `"x1x2"`, the
input of its terminal tool-call. -/
theorem toolDelta_concat_matches_toolCall_witness :
    (allocatedIds exGen exRunA).Nodup
    ∧ StreamEvent.toolCall "a" "alpha" "x1x2" ∈ runStream exGen exRunA
    ∧ deltaConcat "a" (runStream exGen exRunA) = "x1x2" :=
  ⟨by decide, by decide,
    toolDelta_concat_matches_toolCall exGen exRunA (by decide)
      "a" "alpha" "x1x2" (by decide)⟩

end AzureAiSdk

namespace AzureAiSdk

-- ---------------------------------------------------------------------------
-- Theorems: C2
-- ---------------------------------------------------------------------------

/-- C2 (amended): provided the ids allocated to distinct wire indices are
pairwise distinct and none collides with the text span id `text-0`, every
id's events occur in the order start, then deltas, then end, with at most
one start and one end (the filtered per-id event list is empty, a complete
text span, or a complete tool span); each tool-call event follows its id's
tool-input-end; and exactly one finish event is emitted, as the last event
of the stream, strictly after all span-close events. (Without the proviso
the claim fails: see the counterexample, where one id receives two start
events.) -/
theorem stream_event_order (gen : Nat → String)
    (chunks : List ChunkParseResult)
    (hnd : (allocatedIds gen chunks).Nodup)
    (htext : "text-0" ∉ allocatedIds gen chunks) :
    (∀ i, spanShape i (runStream gen chunks))
    ∧ ((runStream gen chunks).filter isFinish).length = 1
    ∧ (∃ r u v, (runStream gen chunks).getLast? = some (StreamEvent.finish r u v)) := by
  obtain ⟨hA, hB, hK, hD, hE, hF, hG, hJ, hH, hI⟩ := MInv_run gen chunks
  have hnd' : (accIds (runState gen chunks)).Nodup := hnd
  have htext' : "text-0" ∉ accIds (runState gen chunks) := htext
  have hrun : runStream gen chunks
      = (runFrom gen initState chunks).2 ++ flushFn (runState gen chunks) := rfl
  have hfl : flushFn (runState gen chunks)
      = (runState gen chunks).openTextIds.map StreamEvent.textEnd
        ++ flushPairs (runState gen chunks).toolCallAccumulators
        ++ [StreamEvent.finish (runState gen chunks).finishReason
              (runState gen chunks).inputTokens
              (runState gen chunks).outputTokens] := rfl
  have hEndsFor : ∀ i : String, ¬i = "text-0" →
      evsFor i ((runState gen chunks).openTextIds.map StreamEvent.textEnd)
        = [] := by
    intro i hne
    rcases hA with hA₀ | hA₀ <;> rw [hA₀]
    · rfl
    · have hne' : ¬("text-0" : String) = i := fun hh => hne hh.symm
      simp [evsFor, eventId, hne']
  refine ⟨?_, ?_, ?_⟩
  · intro i
    by_cases hacc : i ∈ accIds (runState gen chunks)
    · obtain ⟨p, hp, hpi⟩ := List.mem_map.1 hacc
      subst hpi
      obtain ⟨ds, hall, hshape, hjoin⟩ := hF hnd' htext' p hp
      right; right
      refine ⟨p.2.name, p.2.argumentsText, ds, ?_⟩
      have hne0 : ¬p.2.id = "text-0" :=
        fun hh => htext' (hh ▸ List.mem_map.2 ⟨p, hp, rfl⟩)
      rw [hrun, hfl, evsFor_append, hshape, evsFor_append, evsFor_append,
        hEndsFor _ hne0,
        evsFor_flushPairs_mem _ p hp hnd']
      simp [evsFor, eventId]
    · by_cases hi0 : i = "text-0"
      · subst hi0
        by_cases hopen : "text-0" ∈ (runState gen chunks).openTextIds
        · obtain ⟨ds, hds⟩ := hE hacc hopen
          right; left
          refine ⟨ds, ?_⟩
          have hopeneq : (runState gen chunks).openTextIds = ["text-0"] := by
            rcases hA with hA₀ | hA₀
            · rw [hA₀] at hopen
              simp at hopen
            · exact hA₀
          rw [hrun, hfl, evsFor_append, hds, evsFor_append, evsFor_append,
            hopeneq, evsFor_flushPairs_not_mem _ _ hacc]
          simp [evsFor, eventId]
        · left
          have hopeneq : (runState gen chunks).openTextIds = [] := by
            rcases hA with hA₀ | hA₀
            · exact hA₀
            · rw [hA₀] at hopen
              simp at hopen
          rw [hrun, hfl, evsFor_append, hD _ hacc hopen, evsFor_append,
            evsFor_append, hopeneq, evsFor_flushPairs_not_mem _ _ hacc]
          simp [evsFor, eventId]
      · left
        have hio : i ∉ (runState gen chunks).openTextIds := by
          rcases hA with hA₀ | hA₀ <;> rw [hA₀]
          · simp
          · simp only [List.mem_singleton]
            exact fun hh => hi0 hh
        rw [hrun, hfl, evsFor_append, hD _ hacc hio, evsFor_append,
          evsFor_append, hEndsFor _ hi0, evsFor_flushPairs_not_mem _ _ hacc]
        simp [evsFor, eventId]
  · have hEndsFin : ((runState gen chunks).openTextIds.map
        StreamEvent.textEnd).filter isFinish = [] := by
      rw [List.filter_eq_nil_iff]
      intro e he
      obtain ⟨x, _, hx⟩ := List.mem_map.1 he
      subst hx
      simp [isFinish]
    rw [hrun, hfl, List.filter_append, List.filter_append, List.filter_append,
      filter_isFinish_of_no_terminal _ hB, hEndsFin, flushPairs_no_finish]
    rfl
  · refine ⟨(runState gen chunks).finishReason,
      (runState gen chunks).inputTokens, (runState gen chunks).outputTokens, ?_⟩
    rw [hrun, hfl]
    rw [show (runFrom gen initState chunks).2
        ++ ((runState gen chunks).openTextIds.map StreamEvent.textEnd
            ++ flushPairs (runState gen chunks).toolCallAccumulators
            ++ [StreamEvent.finish (runState gen chunks).finishReason
                  (runState gen chunks).inputTokens
                  (runState gen chunks).outputTokens])
      = ((runFrom gen initState chunks).2
          ++ (runState gen chunks).openTextIds.map StreamEvent.textEnd
          ++ flushPairs (runState gen chunks).toolCallAccumulators)
        ++ [StreamEvent.finish (runState gen chunks).finishReason
              (runState gen chunks).inputTokens
              (runState gen chunks).outputTokens] by
      simp [List.append_assoc]]
    exact List.getLast?_concat _

/-- Counterexample for C2 as stated: in the run `exRunDup` two distinct
wire indices carry the same wire id `"a"`, so the stream emits two
tool-input-start events for the single id `"a"` — more than the claimed
"at most one start per id". -/
theorem stream_event_order_counterexample :
    ((runStream exGen exRunDup).filter
      (fun e => e = StreamEvent.toolInputStart "a" "")).length = 2 := by
  decide

/-- Witness for C2: the split two-tool-call run `exRunA` has distinct
allocated ids not colliding with `text-0`; its id `"a"` satisfies the span
shape and the stream carries exactly one finish event. -/
theorem stream_event_order_witness :
    (allocatedIds exGen exRunA).Nodup
    ∧ "text-0" ∉ allocatedIds exGen exRunA
    ∧ spanShape "a" (runStream exGen exRunA)
    ∧ ((runStream exGen exRunA).filter isFinish).length = 1 :=
  ⟨by decide, by decide,
   (stream_event_order exGen exRunA (by decide) (by decide)).1 "a",
   (stream_event_order exGen exRunA (by decide) (by decide)).2.1⟩

end AzureAiSdk

namespace AzureAiSdk

-- ---------------------------------------------------------------------------
-- Theorems: C3
-- ---------------------------------------------------------------------------

theorem toolCallInputs_runStream (gen : Nat → String)
    (chunks : List ChunkParseResult) :
    toolCallInputs (runStream gen chunks)
      = (seenIndices chunks).map (indexArgs chunks) := by
  obtain ⟨hA, hB, hK, hD, hE, hF, hG, hJ, hH, hI⟩ := MInv_run gen chunks
  have hkeysnd : ((runState gen chunks).toolCallAccumulators.map Prod.fst).Nodup := by
    rw [hI]
    exact firstOcc_nodup _
  have hper : ∀ p ∈ (runState gen chunks).toolCallAccumulators,
      p.2.argumentsText = indexArgs chunks p.1 := by
    intro p hp
    have hlook := mapLookup_of_mem_nodup _ p hp hkeysnd
    cases hfilter : deltasAtIndex p.1 (flatToolDeltas chunks) with
    | nil =>
      have hnone := (hH p.1).1.1 hfilter
      rw [hnone] at hlook
      cases hlook
    | cons tc₀ t =>
      obtain ⟨acc, hacc, _, _, _, hargs⟩ := (hH p.1).2 tc₀ t hfilter
      rw [hlook] at hacc
      injection hacc with he
      rw [he]
      exact hargs
  have hEnds : toolCallInputs
      ((runState gen chunks).openTextIds.map StreamEvent.textEnd) = [] := by
    rcases hA with h0 | h0 <;> rw [h0] <;> rfl
  have hfl : flushFn (runState gen chunks)
      = (runState gen chunks).openTextIds.map StreamEvent.textEnd
        ++ flushPairs (runState gen chunks).toolCallAccumulators
        ++ [StreamEvent.finish (runState gen chunks).finishReason
              (runState gen chunks).inputTokens
              (runState gen chunks).outputTokens] := rfl
  rw [runStream, toolCallInputs_append, toolCallInputs_of_no_terminal _ hB,
    hfl, toolCallInputs_append, toolCallInputs_append, hEnds,
    flushPairs_toolCallInputs]
  rw [List.map_congr_left hper]
  rw [show ((runState gen chunks).toolCallAccumulators.map
        (fun p => indexArgs chunks p.1))
      = ((runState gen chunks).toolCallAccumulators.map Prod.fst).map
          (indexArgs chunks) by
    rw [List.map_map]
    rfl]
  rw [hI]
  simp [toolCallInputs, seenIndices]

/-- C3: in every streaming run with tool deltas at N distinct wire indices,
flush emits exactly one tool-call event per index — N in total — each
carrying exactly its own index's accumulated argument text (the
concatenation of that index's fragments in arrival order); and for two
deliveries carrying the same per-index delta subsequences in different
interleavings, every index's accumulated text is the same and the same set
of indices is emitted. -/
theorem concurrent_toolCalls_per_index (gen₁ gen₂ : Nat → String)
    (chunks₁ chunks₂ : List ChunkParseResult)
    (hsame : ∀ k, deltasAtIndex k (flatToolDeltas chunks₁)
        = deltasAtIndex k (flatToolDeltas chunks₂)) :
    toolCallInputs (runStream gen₁ chunks₁)
      = (seenIndices chunks₁).map (indexArgs chunks₁)
    ∧ toolCallInputs (runStream gen₂ chunks₂)
      = (seenIndices chunks₂).map (indexArgs chunks₂)
    ∧ (toolCallInputs (runStream gen₁ chunks₁)).length
      = (seenIndices chunks₁).length
    ∧ (seenIndices chunks₁).Nodup
    ∧ (∀ k, indexArgs chunks₁ k = indexArgs chunks₂ k)
    ∧ (seenIndices chunks₁).toFinset = (seenIndices chunks₂).toFinset := by
  refine ⟨toolCallInputs_runStream gen₁ chunks₁,
    toolCallInputs_runStream gen₂ chunks₂, ?_, firstOcc_nodup _, ?_, ?_⟩
  · rw [toolCallInputs_runStream gen₁ chunks₁, List.length_map]
  · intro k
    unfold indexArgs
    rw [hsame k]
  · ext a
    simp only [List.mem_toFinset, seenIndices, mem_firstOcc]
    constructor <;> intro hmem
    · by_contra hno
      have h₂ : deltasAtIndex a (flatToolDeltas chunks₂) = [] :=
        (deltasAtIndex_nil_iff _ _).2 hno
      have h₁ : deltasAtIndex a (flatToolDeltas chunks₁) = [] := by
        rw [hsame a]
        exact h₂
      exact ((deltasAtIndex_nil_iff _ _).1 h₁) hmem
    · by_contra hno
      have h₁ : deltasAtIndex a (flatToolDeltas chunks₁) = [] :=
        (deltasAtIndex_nil_iff _ _).2 hno
      have h₂ : deltasAtIndex a (flatToolDeltas chunks₂) = [] := by
        rw [← hsame a]
        exact h₁
      exact ((deltasAtIndex_nil_iff _ _).1 h₂) hmem

/-- Witness for C3: the interleaved delivery `exRunA` and the grouped
delivery `exRunB` carry the same per-index delta subsequences; both emit
exactly two tool-call events, each bound to its own index's text
(`x1x2` for index 0, `y1y2` for index 1), over the same index set. -/
theorem concurrent_toolCalls_per_index_witness :
    (∀ k, deltasAtIndex k (flatToolDeltas exRunA)
        = deltasAtIndex k (flatToolDeltas exRunB))
    ∧ toolCallInputs (runStream exGen exRunA) = ["x1x2", "y1y2"]
    ∧ toolCallInputs (runStream exGen exRunB) = ["y1y2", "x1x2"]
    ∧ (seenIndices exRunA).toFinset = (seenIndices exRunB).toFinset := by
  have hsame : ∀ k, deltasAtIndex k (flatToolDeltas exRunA)
      = deltasAtIndex k (flatToolDeltas exRunB) := by
    intro k
    by_cases h0 : k = 0
    · subst h0
      decide
    by_cases h1 : k = 1
    · subst h1
      decide
    have hAe : deltasAtIndex k (flatToolDeltas exRunA) = [] := by
      rw [deltasAtIndex_nil_iff]
      intro hmem
      have hk : k = 0 ∨ k = 1 ∨ k = 0 := by
        simpa [flatToolDeltas, exRunA, exChunkA1, exChunkA2, chunkToolDeltas,
          choiceToolDeltas, mkToolChunk, mkToolDelta] using hmem
      rcases hk with hk | hk | hk
      · exact h0 hk
      · exact h1 hk
      · exact h0 hk
    have hBe : deltasAtIndex k (flatToolDeltas exRunB) = [] := by
      rw [deltasAtIndex_nil_iff]
      intro hmem
      have hk : k = 1 ∨ k = 0 := by
        simpa [flatToolDeltas, exRunB, exChunkB1, exChunkB2, chunkToolDeltas,
          choiceToolDeltas, mkToolChunk, mkToolDelta] using hmem
      rcases hk with hk | hk
      · exact h1 hk
      · exact h0 hk
    rw [hAe, hBe]
  refine ⟨hsame, by decide, by decide,
    (concurrent_toolCalls_per_index exGen exGen exRunA exRunB hsame).2.2.2.2.2⟩

end AzureAiSdk

namespace AzureAiSdk

-- ---------------------------------------------------------------------------
-- Theorems: C10
-- ---------------------------------------------------------------------------

/-- C10: the id of a wire index's accumulator is fixed when the first delta
for that index arrives — the wire-supplied id when present there, otherwise
a generated id — and every event of that index's span (start, end, and the
terminal tool-call with the accumulated text) carries that single id.
A wire-supplied id on a later delta for an already-known index is ignored:
the processing step is wholly insensitive to the `id` field then, and every
event it emits carries the stored accumulator id. -/
theorem index_id_allocation (gen : Nat → String)
    (chunks : List ChunkParseResult) (k : Int) (acc : ToolAcc)
    (hacc : mapLookup (runState gen chunks).toolCallAccumulators k = some acc) :
    (∀ tc t, deltasAtIndex k (flatToolDeltas chunks) = tc :: t →
        (∀ w, tc.id = some w → acc.id = w)
        ∧ (tc.id = none → ∃ m, acc.id = gen m))
    ∧ StreamEvent.toolInputStart acc.id acc.name ∈ runStream gen chunks
    ∧ StreamEvent.toolInputEnd acc.id ∈ runStream gen chunks
    ∧ StreamEvent.toolCall acc.id acc.name acc.argumentsText
        ∈ runStream gen chunks
    ∧ (∀ (s : StreamState) (tc : ToolCallDelta) (x : Option String),
        (mapLookup s.toolCallAccumulators tc.index).isSome = true →
        processToolCallDelta gen s tc
          = processToolCallDelta gen s { tc with id := x })
    ∧ (∀ (s : StreamState) (tc : ToolCallDelta) (a : ToolAcc),
        mapLookup s.toolCallAccumulators tc.index = some a →
        ∀ e ∈ (processToolCallDelta gen s tc).2,
          ∃ d, e = StreamEvent.toolInputDelta a.id d) := by
  obtain ⟨hA, hB, hK, hD, hE, hF, hG, hJ, hH, hI⟩ := MInv_run gen chunks
  have hp : (k, acc) ∈ (runState gen chunks).toolCallAccumulators :=
    mapLookup_some_mem _ _ _ hacc
  refine ⟨?_, ?_, ?_, ?_, ?_, ?_⟩
  · intro tc t heq
    obtain ⟨acc₀, hacc₀, hid, hgen, _, _⟩ := (hH k).2 tc t heq
    rw [hacc] at hacc₀
    injection hacc₀ with he
    constructor
    · intro w hw
      rw [he]
      exact hid w hw
    · intro hnone
      obtain ⟨m, hm⟩ := hgen hnone
      exact ⟨m, by rw [he]; exact hm⟩
  · exact List.mem_append_left _ (hJ (k, acc) hp)
  · refine List.mem_append_right _ ?_
    have h₃ := mem_flushPairs_end _ (k, acc) hp
    simp only [flushFn, List.mem_append]
    exact Or.inl (Or.inr h₃)
  · refine List.mem_append_right _ ?_
    have h₃ := mem_flushPairs_call _ (k, acc) hp
    simp only [flushFn, List.mem_append]
    exact Or.inl (Or.inr h₃)
  · intro s tc x hsome
    rw [Option.isSome_iff_exists] at hsome
    obtain ⟨a, ha⟩ := hsome
    simp [processToolCallDelta, ha]
  · intro s tc a ha e he
    by_cases hd0 : tc.arguments.getD "" = ""
    · simp [processToolCallDelta, ha, hd0] at he
    · simp [processToolCallDelta, ha, hd0] at he
      exact ⟨tc.arguments.getD "", he⟩

/-- Witness for C10: in the run `exRunC` index 0 announces wire id `"a"`
first, a later delta carries the conflicting wire id `"ZZZ"`, and the
accumulator keeps id `"a"`, name `"alpha"`, and the accumulated text
`"xy"`; the terminal tool-call carries that id. -/
theorem index_id_allocation_witness :
    mapLookup (runState exGen exRunC).toolCallAccumulators 0
      = some { id := "a", name := "alpha", argumentsText := "xy" }
    ∧ ({ id := "a", name := "alpha", argumentsText := "xy" } : ToolAcc).id = "a"
    ∧ StreamEvent.toolCall "a" "alpha" "xy" ∈ runStream exGen exRunC := by
  have h := index_id_allocation exGen exRunC 0
    { id := "a", name := "alpha", argumentsText := "xy" } (by decide)
  refine ⟨by decide, ?_, ?_⟩
  · exact (h.1 (mkToolDelta 0 (some "a") (some "alpha") (some "x"))
      [mkToolDelta 0 (some "ZZZ") none (some "y")] (by decide)).1 "a" rfl
  · exact h.2.2.2.1

end AzureAiSdk
